import Mathlib

/-!
Verification development for the UiPath JSON formatter (src/app.py).

The program is a single regex-driven text filter.  We embed its two core
functions shallowly over `List Char`:

* `format_for_uipath` (app.py lines 36-72): normalize whitespace, detect
  bare identifiers in JSON value position, replace each with a
  concatenation fragment, run two cleanup substitutions, double all
  quotes, wrap in outer quotes, run two final cleanup substitutions.
* `validate_json_structure` (app.py lines 77-88): strict JSON parse
  first, falling back to a check that both brace characters occur.

Every Python regex used by the source has the property that each
quantifier is followed by a literal character class disjoint from the
quantified class, so the backtracking search coincides with the pure
greedy scan; the scanners below implement that greedy scan, consuming
non-overlapping matches left to right exactly as `re.sub` / `re.findall`
do.  Whitespace is modelled as the ASCII part of Python's regex class
`\s` (codes 9-13 and 32).  The strict JSON parse performed by the Python
standard library `json.loads` is modelled by `parseJVal` below following
the JSON grammar that `json.loads` accepts (including the non-standard
literals NaN and Infinity that it allows by default).
-/

/-- Code point of a character, used for all character class tests. -/
def cn (c : Char) : Nat := c.toNat

/-- ASCII whitespace as matched by the source's regex class. -/
def isSpace (c : Char) : Bool := cn c = 32 || (9 ≤ cn c && cn c ≤ 13)

/-- Decimal digit. -/
def isDigitC (c : Char) : Bool := 48 ≤ cn c && cn c ≤ 57

/-- First character of an identifier: letter or underscore, the class
`[A-Za-z_]` of the detection regex. -/
def identStart (c : Char) : Bool :=
  (65 ≤ cn c && cn c ≤ 90) || (97 ≤ cn c && cn c ≤ 122) || cn c = 95

/-- Identifier continuation, the class `[A-Za-z0-9_]`. -/
def identChar (c : Char) : Bool := identStart c || isDigitC c

/-- Dotted-suffix characters, the class `[A-Za-z0-9_().]` of the
detection regex (codes 46, 40, 41 are dot and parentheses). -/
def sufChar (c : Char) : Bool := identChar c || cn c = 46 || cn c = 40 || cn c = 41

/-- Value-terminator characters, the class of comma, closing brace and
closing bracket used as lookahead by the detection regex. -/
def isTerm (c : Char) : Bool := cn c = 44 || cn c = 125 || cn c = 93

/-- Python `str.strip()` restricted to ASCII whitespace. -/
def pyStrip (s : List Char) : List Char :=
  ((s.dropWhile isSpace).reverse.dropWhile isSpace).reverse

/-- Auxiliary whitespace-collapsing scan: the Boolean records whether the
previous character was whitespace (so a run emits one single space), the
embedding of the source's substitution of single spaces for whitespace
runs. -/
def collapseAux : Bool → List Char → List Char
  | _, [] => []
  | prev, c :: cs =>
    if isSpace c then
      if prev then collapseAux true cs else ' ' :: collapseAux true cs
    else c :: collapseAux false cs

/-- Normalization step of app.py line 39: strip, then collapse every
whitespace run to a single space. -/
def normalizeL (s : List Char) : List Char := collapseAux false (pyStrip s)

/-- Greedy parse of one identifier token at the head of the input: the
group `[A-Za-z_][A-Za-z0-9_]*(?:\.[A-Za-z0-9_().]+)*` of the detection
regex (app.py line 43).  Since the dot is itself in the suffix class, the
whole dotted-suffix part is one maximal run of suffix characters started
by a dot with at least one suffix character after it. -/
def parseTok : List Char → Option (List Char)
  | [] => none
  | c :: cs =>
    if identStart c then
      match cs.dropWhile identChar with
      | '.' :: d :: ds =>
        if sufChar d then
          some ((c :: cs.takeWhile identChar) ++ '.' :: (d :: ds).takeWhile sufChar)
        else some (c :: cs.takeWhile identChar)
      | _ => some (c :: cs.takeWhile identChar)
    else none

/-- Attempt to match the detection regex right after a colon: optional
whitespace, an identifier token, optional whitespace, and a terminator
as lookahead.  Returns the captured token together with the number of
consumed characters (the lookahead terminator is not consumed, matching
`(?=[,}\]])`). -/
def matchAfterColon (cs : List Char) : Option (List Char × Nat) :=
  match parseTok (cs.dropWhile isSpace) with
  | none => none
  | some tok =>
    match ((cs.dropWhile isSpace).drop tok.length).dropWhile isSpace with
    | t :: _ =>
      if isTerm t then
        some (tok, (cs.takeWhile isSpace).length + tok.length +
          (((cs.dropWhile isSpace).drop tok.length).takeWhile isSpace).length)
      else none
    | [] => none

/-- Fuel-based scan for `re.findall`: the fuel only bounds the number of
steps (each step consumes at least the head character, so fuel equal to
the input length is always enough) and makes the recursion structural. -/
def findAllF : Nat → List Char → List (List Char)
  | _, [] => []
  | 0, _ => []
  | Nat.succ f, c :: cs =>
    if c = ':' then
      match matchAfterColon cs with
      | some (tok, k) => tok :: findAllF f (cs.drop k)
      | none => findAllF f cs
    else findAllF f cs

/-- The embedding of `re.findall(variable_pattern, text)` (app.py line
46): scan left to right, record each captured group, resume after each
match. -/
def findAll (s : List Char) : List (List Char) := findAllF s.length s

/-- Deduplication of the detected variable list, the embedding of
`set(variables)` (app.py line 52) with first-occurrence order. -/
def dedupAux (seen : List (List Char)) : List (List Char) → List (List Char)
  | [] => []
  | x :: xs => if seen.contains x then dedupAux seen xs else x :: dedupAux (x :: seen) xs

/-- Detected variables of a text as the source computes them on the
normalized text (app.py lines 39-52). -/
def detectedL (s : List Char) : List (List Char) := dedupAux [] (findAll (normalizeL s))

/-- Attempt to match the per-variable substitution regex
`(:\s*)var(\s*[,}\]])` right after a colon (app.py line 54).  On success
returns the replacement text for everything after the colon (group one's
whitespace, the concatenation fragment around the variable, and the
consumed group two) together with the number of consumed characters
(here the terminator is consumed). -/
def trySub (v : List Char) (cs : List Char) : Option (List Char × Nat) :=
  if (cs.dropWhile isSpace).take v.length = v then
    match (((cs.dropWhile isSpace).drop v.length).dropWhile isSpace) with
    | t :: _ =>
      if isTerm t then
        some ((cs.takeWhile isSpace) ++
          '"' :: ' ' :: '+' :: ' ' ::
            (v ++ ' ' :: '+' :: ' ' :: '"' ::
              ((((cs.dropWhile isSpace).drop v.length).takeWhile isSpace) ++ [t])),
          (cs.takeWhile isSpace).length + v.length +
            (((cs.dropWhile isSpace).drop v.length).takeWhile isSpace).length + 1)
      else none
    | [] => none
  else none

/-- The embedding of `re.sub(pattern, replacement, result)` for one
variable (app.py line 56): replace every non-overlapping occurrence of
colon, whitespace, the variable, whitespace, terminator by the
concatenation form, never rescanning replacement text. -/
def substVarF (v : List Char) : Nat → List Char → List Char
  | _, [] => []
  | 0, l => l
  | Nat.succ f, c :: cs =>
    if c = ':' then
      match trySub v cs with
      | some (mid, k) => ':' :: (mid ++ substVarF v f (cs.drop k))
      | none => ':' :: substVarF v f cs
    else c :: substVarF v f cs

/-- The scan of `substVarF` with always-sufficient fuel. -/
def substVar (v : List Char) (s : List Char) : List Char := substVarF v s.length s

/-- The substitution loop of app.py lines 52-56 over a list of detected
variables. -/
def substAll (vs : List (List Char)) (t : List Char) : List Char :=
  vs.foldl (fun acc v => substVar v acc) t

/-- Attempt to match the remainder of the cleanup regex `"\s*\+\s*"`
after its opening quote (app.py line 59), returning the number of
consumed characters after that quote. -/
def try1 (cs : List Char) : Option Nat :=
  match cs.dropWhile isSpace with
  | '+' :: r =>
    match r.dropWhile isSpace with
    | '"' :: _ =>
      some ((cs.takeWhile isSpace).length + 1 + (r.takeWhile isSpace).length + 1)
    | _ => none
  | _ => none

/-- The embedding of `re.sub('"\s*\+\s*"', '', result)` (app.py line
59): every quote, whitespace, plus, whitespace, quote span is deleted. -/
def cleanup1F : Nat → List Char → List Char
  | _, [] => []
  | 0, l => l
  | Nat.succ f, c :: cs =>
    if c = '"' then
      match try1 cs with
      | some k => cleanup1F f (cs.drop k)
      | none => '"' :: cleanup1F f cs
    else c :: cleanup1F f cs

/-- The scan of `cleanup1F` with always-sufficient fuel. -/
def cleanup1 (s : List Char) : List Char := cleanup1F s.length s

/-- Attempt to match the remainder of the cleanup regex `\+\s*""\s*\+`
after its leading plus (app.py line 60). -/
def try2 (cs : List Char) : Option Nat :=
  match cs.dropWhile isSpace with
  | '"' :: '"' :: r =>
    match r.dropWhile isSpace with
    | '+' :: _ =>
      some ((cs.takeWhile isSpace).length + 2 + (r.takeWhile isSpace).length + 1)
    | _ => none
  | _ => none

/-- The embedding of `re.sub('\+\s*""\s*\+', ' + ', result)` (app.py
line 60). -/
def cleanup2F : Nat → List Char → List Char
  | _, [] => []
  | 0, l => l
  | Nat.succ f, c :: cs =>
    if c = '+' then
      match try2 cs with
      | some k => ' ' :: '+' :: ' ' :: cleanup2F f (cs.drop k)
      | none => '+' :: cleanup2F f cs
    else c :: cleanup2F f cs

/-- The scan of `cleanup2F` with always-sufficient fuel. -/
def cleanup2 (s : List Char) : List Char := cleanup2F s.length s

/-- The embedding of `result.replace('"', '""')` (app.py line 63). -/
def doubleQuotes : List Char → List Char
  | [] => []
  | c :: cs => if c = '"' then '"' :: '"' :: doubleQuotes cs else c :: doubleQuotes cs

/-- The embedding of the outer wrapping step (app.py line 66). -/
def wrap (t : List Char) : List Char := '"' :: (t ++ ['"'])

/-- Attempt to match the remainder of the final cleanup regex
`""""\s*\+\s*` after its first quote (app.py line 69). -/
def fc1try (cs : List Char) : Option Nat :=
  match cs with
  | '"' :: '"' :: '"' :: r =>
    match r.dropWhile isSpace with
    | '+' :: r2 =>
      some (3 + (r.takeWhile isSpace).length + 1 + (r2.takeWhile isSpace).length)
    | _ => none
  | _ => none

/-- The embedding of `re.sub('""""\s*\+\s*', '"" + ', result)` (app.py
line 69). -/
def fcleanup1F : Nat → List Char → List Char
  | _, [] => []
  | 0, l => l
  | Nat.succ f, c :: cs =>
    if c = '"' then
      match fc1try cs with
      | some k => '"' :: '"' :: ' ' :: '+' :: ' ' :: fcleanup1F f (cs.drop k)
      | none => '"' :: fcleanup1F f cs
    else c :: fcleanup1F f cs

/-- The scan of `fcleanup1F` with always-sufficient fuel. -/
def fcleanup1 (s : List Char) : List Char := fcleanup1F s.length s

/-- Attempt to match the remainder of the final cleanup regex
`\+\s*""""` after its leading plus (app.py line 70). -/
def fc2try (cs : List Char) : Option Nat :=
  match cs.dropWhile isSpace with
  | '"' :: '"' :: '"' :: '"' :: _ => some ((cs.takeWhile isSpace).length + 4)
  | _ => none

/-- The embedding of `re.sub('\+\s*""""', ' + ""', result)` (app.py
line 70). -/
def fcleanup2F : Nat → List Char → List Char
  | _, [] => []
  | 0, l => l
  | Nat.succ f, c :: cs =>
    if c = '+' then
      match fc2try cs with
      | some k => ' ' :: '+' :: ' ' :: '"' :: '"' :: fcleanup2F f (cs.drop k)
      | none => '+' :: fcleanup2F f cs
    else c :: fcleanup2F f cs

/-- The scan of `fcleanup2F` with always-sufficient fuel. -/
def fcleanup2 (s : List Char) : List Char := fcleanup2F s.length s

/-- The state of the pipeline at the end of the substitution loop
(app.py line 56), before the cleanup passes. -/
def afterSubstL (s : List Char) : List Char := substAll (detectedL s) (normalizeL s)

/-- The state of the pipeline just before quote doubling (app.py line
63): normalized, substituted, cleaned text. -/
def preWrapL (s : List Char) : List Char := cleanup2 (cleanup1 (afterSubstL s))

/-- The whole transformation pipeline on character lists (app.py lines
36-72). -/
def formatL (s : List Char) : List Char :=
  fcleanup2 (fcleanup1 (wrap (doubleQuotes (preWrapL s))))

/-- The embedding of `format_for_uipath` (app.py lines 36-72). -/
def format_for_uipath (s : String) : String := String.mk (formatL s.data)

/-- Detected variables of an input, as strings. -/
def detectedVars (s : String) : List String := (detectedL s.data).map String.mk

/-- JSON whitespace (space, tab, line feed, carriage return). -/
def jWs (c : Char) : Bool := cn c = 32 || cn c = 9 || cn c = 10 || cn c = 13

/-- Hexadecimal digit. -/
def hexD (c : Char) : Bool :=
  isDigitC c || (65 ≤ cn c && cn c ≤ 70) || (97 ≤ cn c && cn c ≤ 102)

/-- Consume the body of a JSON string after its opening quote, following
the strict string grammar of the standard library JSON parser: plain
characters above code 31, the eight simple escapes and `\uXXXX`.
Returns the remaining input after the closing quote. -/
def parseJStr : Nat → List Char → Option (List Char)
  | 0, _ => none
  | _, [] => none
  | Nat.succ f, c :: cs =>
    if c = '"' then some cs
    else if c = '\\' then
      match cs with
      | [] => none
      | e :: cs2 =>
        if e = 'u' then
          match cs2 with
          | h1 :: h2 :: h3 :: h4 :: cs3 =>
            if hexD h1 && hexD h2 && hexD h3 && hexD h4 then parseJStr f cs3 else none
          | _ => none
        else if e = '"' || e = '\\' || e = '/' || e = 'b' || e = 'f' ||
            e = 'n' || e = 'r' || e = 't' then parseJStr f cs2
        else none
    else if cn c < 32 then none
    else parseJStr f cs

/-- Consume the integer part of a JSON number: `0` or a nonzero digit
followed by digits. -/
def parseJInt : List Char → Option (List Char)
  | [] => none
  | c :: cs =>
    if c = '0' then some cs
    else if isDigitC c then some (cs.dropWhile isDigitC)
    else none

/-- Consume an optional JSON fraction part `\.[0-9]+`. -/
def parseJFrac (s : List Char) : List Char :=
  match s with
  | '.' :: c :: cs => if isDigitC c then cs.dropWhile isDigitC else s
  | _ => s

/-- Consume an optional JSON exponent part `[eE][+-]?[0-9]+`. -/
def parseJExp (s : List Char) : List Char :=
  match s with
  | e :: sgn :: r2 =>
    if e = 'e' || e = 'E' then
      if sgn = '+' || sgn = '-' then
        match r2 with
        | d :: ds => if isDigitC d then ds.dropWhile isDigitC else s
        | [] => s
      else if isDigitC sgn then r2.dropWhile isDigitC
      else s
    else s
  | _ => s

/-- Consume a JSON number, minus sign included. -/
def parseJNum (s : List Char) : Option (List Char) :=
  match s with
  | '-' :: r =>
    (match parseJInt r with
     | some r2 => some (parseJExp (parseJFrac r2))
     | none => none)
  | _ =>
    (match parseJInt s with
     | some r2 => some (parseJExp (parseJFrac r2))
     | none => none)

mutual

/-- Consume one JSON value at the head of the input (no leading
whitespace), as the standard library parser used on app.py line 81 does,
with its default extra literals NaN and Infinity. -/
def parseJVal : Nat → List Char → Option (List Char)
  | 0, _ => none
  | _, [] => none
  | Nat.succ f, c :: cs =>
    if cn c = 123 then
      match cs.dropWhile jWs with
      | d :: r2 => if cn d = 125 then some r2 else parseJMembers f (d :: r2)
      | [] => none
    else if c = '[' then
      match cs.dropWhile jWs with
      | ']' :: r2 => some r2
      | r => parseJElems f r
    else if c = '"' then parseJStr f cs
    else if c = '-' then
      if cs.take 8 = "Infinity".data then some (cs.drop 8) else parseJNum (c :: cs)
    else if isDigitC c then parseJNum (c :: cs)
    else if (c :: cs).take 4 = "true".data then some ((c :: cs).drop 4)
    else if (c :: cs).take 5 = "false".data then some ((c :: cs).drop 5)
    else if (c :: cs).take 4 = "null".data then some ((c :: cs).drop 4)
    else if (c :: cs).take 3 = "NaN".data then some ((c :: cs).drop 3)
    else if (c :: cs).take 8 = "Infinity".data then some ((c :: cs).drop 8)
    else none

/-- Consume the members of a JSON object starting at a key (leading
whitespace already skipped) through the closing brace. -/
def parseJMembers : Nat → List Char → Option (List Char)
  | 0, _ => none
  | Nat.succ f, s =>
    match s with
    | '"' :: cs =>
      (match parseJStr f cs with
       | none => none
       | some r1 =>
         match r1.dropWhile jWs with
         | ':' :: r3 =>
           (match parseJVal f (r3.dropWhile jWs) with
            | none => none
            | some r4 =>
              match r4.dropWhile jWs with
              | x :: r6 =>
                if x = ',' then parseJMembers f (r6.dropWhile jWs)
                else if cn x = 125 then some r6
                else none
              | [] => none)
         | _ => none)
    | _ => none

/-- Consume the elements of a JSON array starting at a value (leading
whitespace already skipped) through the closing bracket. -/
def parseJElems : Nat → List Char → Option (List Char)
  | 0, _ => none
  | Nat.succ f, s =>
    match parseJVal f s with
    | none => none
    | some r1 =>
      match r1.dropWhile jWs with
      | ',' :: r3 => parseJElems f (r3.dropWhile jWs)
      | ']' :: r3 => some r3
      | _ => none

end

/-- Whether a strict JSON parse of the whole text succeeds, the
embedding of the `json.loads` attempt on app.py line 81.  The fuel
bound exceeds the number of parser steps any input of this length can
take. -/
def jsonOkL (l : List Char) : Bool :=
  match parseJVal (4 * l.length + 16) (l.dropWhile jWs) with
  | some r => (r.dropWhile jWs).isEmpty
  | none => false

/-- Strict JSON validity of a string. -/
def jsonOk (s : String) : Bool := jsonOkL s.data

/-- The embedding of `validate_json_structure` (app.py lines 77-88):
strict JSON parse first, then the heuristic that both brace characters
occur somewhere in the input. -/
def validate_json_structure (s : String) : Bool × String :=
  if jsonOk s then (true, "Valid JSON structure")
  else if s.data.any (fun c => cn c = 123) && s.data.any (fun c => cn c = 125) then
    (true, "JSON-like structure with variables detected")
  else (false, "Invalid JSON structure")

/-- The button-handler control flow (app.py lines 96-107): refuse with
the validation message when validation fails, otherwise produce the
transcoded output. -/
def process (s : String) : Except String String :=
  if (validate_json_structure s).1 then Except.ok (format_for_uipath s)
  else Except.error (validate_json_structure s).2

/-- Whether an `Except` result is a success. -/
def exceptOk (e : Except String String) : Bool :=
  match e with
  | Except.ok _ => true
  | Except.error _ => false

/-- Whether the token sequence is a bare occurrence of `v` in value
position starting right after a colon: optional whitespace, the exact
token `v`, optional whitespace, then one of the three terminator
characters. -/
def tryMatch (v : List Char) (cs : List Char) : Bool :=
  if (cs.dropWhile isSpace).take v.length = v then
    match ((cs.dropWhile isSpace).drop v.length).dropWhile isSpace with
    | t :: _ => isTerm t
    | [] => false
  else false

/-- Whether the text contains, anywhere, a bare occurrence of `v` in
value position (a colon before it and a terminator after it, with only
whitespace around), the positional rule of the detection grammar. -/
def hasMatch (v : List Char) : List Char → Bool
  | [] => false
  | c :: cs => if c = ':' then tryMatch v cs || hasMatch v cs else hasMatch v cs

/-- Scan for the wrapping invariant: the Boolean state records whether
the current run of quote characters has even length so far; every run
closed by a non-quote character must be even, the input must be
nonempty, and its very last character must be a quote closing a run
that was even before it.  `tailOK true m` thus says exactly that `m`
consists of a body whose maximal quote runs all have even length,
followed by one final unpaired quote. -/
def tailOK : Bool → List Char → Bool
  | _, [] => false
  | b, c :: cs =>
    match cs with
    | [] => b && (c = '"')
    | _ :: _ => if c = '"' then tailOK (!b) cs else b && tailOK true cs

/-- The wrapping invariant of the output as a whole: it starts with one
quote, ends with one quote, and every maximal quote run strictly between
the two has even length (no interior unpaired quote). -/
def outOK : List Char → Bool
  | '"' :: rest => tailOK true rest
  | _ => false

/-- Number of quote characters in a text. -/
def countQ (l : List Char) : Nat := l.count '"'

/-- Whether `t` is a suffix of `s`, by direct computation. -/
def endsWithL (s t : List Char) : Bool :=
  decide (t.length ≤ s.length) && decide (s.drop (s.length - t.length) = t)

/-- Whether a token is generated by the identifier grammar of the
detection regex: a letter or underscore, then letters, digits or
underscores, then an optional dotted-suffix part which (because the dot
is itself in the suffix class) is exactly a dot followed by at least one
character, all from the class of letters, digits, underscore, dot and
parentheses. -/
def tokenGrammar (t : List Char) : Bool :=
  match t with
  | [] => false
  | c :: rest =>
    identStart c &&
      (match rest.dropWhile identChar with
       | [] => true
       | '.' :: d :: ds => ('.' :: d :: ds).all sufChar
       | _ => false)

/-- Whether a token is a plausible variable name: nonempty, starting
with a letter or underscore, all characters from the suffix class. -/
def goodVar (v : List Char) : Bool :=
  match v with
  | [] => false
  | c :: _ => identStart c && v.all sufChar

mutual

/-- Whether the token grammar as the specification states it accepts a
suffix part: dotted suffixes each of shape `[A-Za-z0-9_]+` optionally
followed by an empty call `()`.  Modelled from the spec: this is the
specification's identifier grammar, used to compare with the source's
`tokenGrammar`. -/
def specSuffixOK : List Char → Bool
  | [] => true
  | c :: rest => c = '.' && specAfterDot rest

/-- Right after a dot the specification's grammar requires at least one
identifier character. -/
def specAfterDot : List Char → Bool
  | [] => false
  | c :: rest => identChar c && specAfterIdent rest

/-- Inside a suffix identifier run: more identifier characters, an
optional empty call followed by further suffixes, a new dotted suffix,
or the end of the token. -/
def specAfterIdent : List Char → Bool
  | [] => true
  | c :: rest =>
    if identChar c then specAfterIdent rest
    else if c = '(' then
      (match rest with
       | ')' :: more => specSuffixOK more
       | _ => false)
    else if c = '.' then specAfterDot rest
    else false

end

/-- The specification's identifier grammar as a whole (modelled from the
spec): base identifier then dotted suffixes, each `[A-Za-z0-9_]+`
optionally followed by `()`. -/
def specGrammar (t : List Char) : Bool :=
  match t with
  | [] => false
  | c :: rest => identStart c && specSuffixOK (rest.dropWhile identChar)

/-- Normalized input with quotes doubled and the outer quote pair added,
the claimed no-variable passthrough output shape. -/
def wrapDoubleNorm (s : String) : String :=
  String.mk (wrap (doubleQuotes (normalizeL s.data)))

/-- A minimal document placing a candidate token in JSON value position:
a quoted key, a colon, one space, the token, and a closing bracket as
terminator. -/
def mkValueInput (t : List Char) : List Char :=
  '"' :: 'k' :: '"' :: ':' :: ' ' :: (t ++ [']'])

/-!
Helper lemmas about the character classes.
-/

/-- Characters with distinct code points are distinct. -/
theorem ne_of_cn_ne {c d : Char} (h : cn c ≠ cn d) : c ≠ d :=
  fun he => h (by rw [he])

/-- Code-point ranges of the suffix class. -/
theorem sufChar_cn {c : Char} (h : sufChar c = true) :
    (65 ≤ cn c ∧ cn c ≤ 90) ∨ (97 ≤ cn c ∧ cn c ≤ 122) ∨ cn c = 95 ∨
      (48 ≤ cn c ∧ cn c ≤ 57) ∨ cn c = 46 ∨ cn c = 40 ∨ cn c = 41 := by
  simp [sufChar, identChar, identStart, isDigitC] at h
  omega

/-- Suffix-class characters are not colons. -/
theorem sufChar_ne_colon {c : Char} (h : sufChar c = true) : c ≠ ':' := by
  have h1 := sufChar_cn h
  have h2 : cn ':' = 58 := by decide
  exact ne_of_cn_ne (by omega)

/-- Suffix-class characters are not quotes. -/
theorem sufChar_ne_quote {c : Char} (h : sufChar c = true) : c ≠ '"' := by
  have h1 := sufChar_cn h
  have h2 : cn '"' = 34 := by decide
  exact ne_of_cn_ne (by omega)

/-- Suffix-class characters are not whitespace. -/
theorem sufChar_not_space {c : Char} (h : sufChar c = true) : isSpace c = false := by
  have h1 := sufChar_cn h
  simp [isSpace]
  omega

/-- Suffix-class characters are not terminators. -/
theorem sufChar_not_term {c : Char} (h : sufChar c = true) : isTerm c = false := by
  have h1 := sufChar_cn h
  simp [isTerm]
  omega

/-- Code-point ranges of whitespace. -/
theorem isSpace_cn {c : Char} (h : isSpace c = true) :
    cn c = 32 ∨ (9 ≤ cn c ∧ cn c ≤ 13) := by
  simp [isSpace] at h
  omega

/-- Whitespace characters are not colons. -/
theorem isSpace_ne_colon {c : Char} (h : isSpace c = true) : c ≠ ':' := by
  have h1 := isSpace_cn h
  have h2 : cn ':' = 58 := by decide
  exact ne_of_cn_ne (by omega)

/-- Whitespace characters are not quotes. -/
theorem isSpace_ne_quote {c : Char} (h : isSpace c = true) : c ≠ '"' := by
  have h1 := isSpace_cn h
  have h2 : cn '"' = 34 := by decide
  exact ne_of_cn_ne (by omega)

/-- Terminator characters are not colons. -/
theorem isTerm_ne_colon {c : Char} (h : isTerm c = true) : c ≠ ':' := by
  simp [isTerm] at h
  have h2 : cn ':' = 58 := by decide
  exact ne_of_cn_ne (by omega)

/-- Terminator characters are not quotes. -/
theorem isTerm_ne_quote {c : Char} (h : isTerm c = true) : c ≠ '"' := by
  simp [isTerm] at h
  have h2 : cn '"' = 34 := by decide
  exact ne_of_cn_ne (by omega)

/-- Identifier-start characters belong to the suffix class. -/
theorem identStart_sufChar {c : Char} (h : identStart c = true) : sufChar c = true := by
  simp [sufChar, identChar, identStart, isDigitC] at *
  omega

/-- Identifier characters belong to the suffix class. -/
theorem identChar_sufChar {c : Char} (h : identChar c = true) : sufChar c = true := by
  simp [sufChar, h]

/-- Identifier-start characters are not whitespace. -/
theorem identStart_not_space {c : Char} (h : identStart c = true) : isSpace c = false :=
  sufChar_not_space (identStart_sufChar h)

/-!
Helper lemmas about lists and the scanning primitives.
-/

/-- Members of a `takeWhile` satisfy the predicate. -/
theorem mem_takeWhile_p {α : Type} {p : α → Bool} :
    ∀ {l : List α} {x : α}, x ∈ l.takeWhile p → p x = true := by
  intro l
  induction l with
  | nil => intro x hx; simp [List.takeWhile] at hx
  | cons c cs ih =>
    intro x hx
    by_cases hc : p c
    · rw [List.takeWhile_cons_of_pos hc] at hx
      rcases List.mem_cons.mp hx with h | h
      · rw [h]; exact hc
      · exact ih h
    · rw [List.takeWhile_cons_of_neg hc] at hx
      simp at hx

/-- Members of a `takeWhile` are members of the list. -/
theorem mem_of_mem_takeWhile {α : Type} {p : α → Bool} {l : List α} {x : α}
    (h : x ∈ l.takeWhile p) : x ∈ l :=
  (List.takeWhile_sublist p).subset h

/-- Members of a `dropWhile` are members of the list. -/
theorem mem_of_mem_dropWhile {α : Type} {p : α → Bool} {l : List α} {x : α}
    (h : x ∈ l.dropWhile p) : x ∈ l :=
  (List.dropWhile_sublist p).subset h

/-- The head of a `dropWhile` fails the predicate. -/
theorem head_dropWhile_false {α : Type} {p : α → Bool} :
    ∀ {l : List α} {y : α} {ys : List α}, l.dropWhile p = y :: ys → p y = false := by
  intro l
  induction l with
  | nil => intro y ys h; simp [List.dropWhile] at h
  | cons c cs ih =>
    intro y ys h
    by_cases hc : p c
    · rw [List.dropWhile_cons_of_pos hc] at h; exact ih h
    · rw [List.dropWhile_cons_of_neg hc] at h
      cases h
      simpa using hc

/-- Dropping the satisfying prefix twice is the same as once. -/
theorem dropWhile_idem {α : Type} (p : α → Bool) (l : List α) :
    (l.dropWhile p).dropWhile p = l.dropWhile p := by
  cases h : l.dropWhile p with
  | nil => rfl
  | cons y ys => exact List.dropWhile_cons_of_neg (by simp [head_dropWhile_false h])

/-- Dropping a satisfied predicate from an all-satisfying list gives
the empty list. -/
theorem dropWhile_eq_nil_of_all {α : Type} {p : α → Bool} :
    ∀ {l : List α}, (∀ x ∈ l, p x = true) → l.dropWhile p = [] := by
  intro l
  induction l with
  | nil => intro _; rfl
  | cons c cs ih =>
    intro h
    rw [List.dropWhile_cons_of_pos (h c (List.mem_cons_self c cs))]
    exact ih fun x hx => h x (List.mem_cons_of_mem c hx)

/-- A `dropWhile` is the drop of the length of the `takeWhile`. -/
theorem dropWhile_eq_drop_takeWhile {α : Type} (p : α → Bool) :
    ∀ l : List α, l.dropWhile p = l.drop (l.takeWhile p).length := by
  intro l
  induction l with
  | nil => rfl
  | cons c cs ih =>
    by_cases hc : p c
    · rw [List.dropWhile_cons_of_pos hc, List.takeWhile_cons_of_pos hc]
      simpa using ih
    · rw [List.dropWhile_cons_of_neg hc, List.takeWhile_cons_of_neg hc]
      rfl

/-- Fuel beyond the input length does not change `substVarF`. -/
theorem substVarF_fuel (v : List Char) :
    ∀ (f₁ : Nat) (s : List Char) (f₂ : Nat), s.length ≤ f₁ → s.length ≤ f₂ →
      substVarF v f₁ s = substVarF v f₂ s := by
  intro f₁
  induction f₁ with
  | zero =>
    intro s f₂ h1 _
    have hs : s = [] := List.eq_nil_of_length_eq_zero (Nat.le_zero.mp h1)
    subst hs
    cases f₂ <;> rfl
  | succ f ih =>
    intro s f₂ h1 h2
    cases s with
    | nil => cases f₂ <;> rfl
    | cons c cs =>
      cases f₂ with
      | zero => simp at h2
      | succ g =>
        simp only [List.length_cons, Nat.succ_le_succ_iff] at h1 h2
        simp only [substVarF]
        by_cases hc : c = ':'
        · simp only [hc, if_pos rfl]
          cases h : trySub v cs with
          | none => simp only [ih cs g h1 h2]
          | some p =>
            have hd1 : (cs.drop p.2).length ≤ f := le_trans (by simp) h1
            have hd2 : (cs.drop p.2).length ≤ g := le_trans (by simp) h2
            simp [h, ih (cs.drop p.2) g hd1 hd2]
        · simp only [if_neg hc, ih cs g h1 h2]

/-- Unfolding equation of `substVar` on a non-colon head. -/
theorem substVar_cons_nc (v : List Char) {c : Char} (cs : List Char) (h : c ≠ ':') :
    substVar v (c :: cs) = c :: substVar v cs := by
  unfold substVar
  simp only [List.length_cons, substVarF, if_neg h]

/-- Unfolding equation of `substVar` on a colon with no match. -/
theorem substVar_colon_none (v : List Char) {cs : List Char} (h : trySub v cs = none) :
    substVar v (':' :: cs) = ':' :: substVar v cs := by
  unfold substVar
  simp [substVarF, h]

/-- Unfolding equation of `substVar` on a colon with a match. -/
theorem substVar_colon_some (v : List Char) {cs mid : List Char} {k : Nat}
    (h : trySub v cs = some (mid, k)) :
    substVar v (':' :: cs) = ':' :: (mid ++ substVar v (cs.drop k)) := by
  unfold substVar
  simp [substVarF, h]
  exact substVarF_fuel v _ _ _ (by simp) (by simp)

/-- Unfolding equation of `hasMatch` on a cons. -/
theorem hasMatch_cons (v : List Char) (c : Char) (cs : List Char) :
    hasMatch v (c :: cs) =
      if c = ':' then (tryMatch v cs || hasMatch v cs) else hasMatch v cs := rfl

/-- A whitespace-only prefix does not change `tryMatch`. -/
theorem tryMatch_dropWhile (v cs : List Char) :
    tryMatch v cs = tryMatch v (cs.dropWhile isSpace) := by
  simp only [tryMatch, dropWhile_idem]

/-- `trySub` fails exactly when `tryMatch` is false. -/
theorem trySub_none_iff (v cs : List Char) :
    trySub v cs = none ↔ tryMatch v cs = false := by
  unfold trySub tryMatch
  by_cases h1 : (cs.dropWhile isSpace).take v.length = v
  · simp only [h1, if_pos rfl]
    cases h2 : ((cs.dropWhile isSpace).drop v.length).dropWhile isSpace with
    | nil => simp
    | cons t r => by_cases h3 : isTerm t <;> simp [h3]
  · simp [h1]

/-- Structure of a successful `trySub`: the replacement text is the
matched whitespace, the concatenation fragment around the variable, more
whitespace and the terminator. -/
theorem trySub_some_struct {v cs mid : List Char} {k : Nat}
    (h : trySub v cs = some (mid, k)) :
    ∃ t : Char, isTerm t = true ∧
      mid = (cs.takeWhile isSpace) ++
        '"' :: ' ' :: '+' :: ' ' ::
          (v ++ ' ' :: '+' :: ' ' :: '"' ::
            ((((cs.dropWhile isSpace).drop v.length).takeWhile isSpace) ++ [t])) := by
  unfold trySub at h
  by_cases h1 : (cs.dropWhile isSpace).take v.length = v
  · simp only [h1, if_pos rfl] at h
    cases h2 : ((cs.dropWhile isSpace).drop v.length).dropWhile isSpace with
    | nil => rw [h2] at h; simp at h
    | cons t r =>
      rw [h2] at h
      by_cases h3 : isTerm t
      · refine ⟨t, h3, ?_⟩
        simp [h3] at h
        exact h.1.symm
      · simp [h3] at h
  · simp [h1] at h

/-!
Claim theorems on concrete inputs.
-/

/-- C4 counterexample: on the valid-JSON input whose only value is the
genuine quoted string containing a colon-Foo-comma shape, the detector
reports Foo, so the claim that identifier-like tokens inside an
already-quoted string value are never reported is false. -/
theorem spec_c4_counterexample :
    detectedVars "\x7b\"a\": \"x: Foo, y\"\x7d" = ["Foo"] := by decide

/-- C4 (amended): the detector tracks no quote state, so an
identifier-like token that follows a colon and precedes a terminator is
reported even when it lies inside an already-quoted string value: the
input here is strictly valid JSON (its value position holds a genuine
string literal), yet Foo is among the detected variables. -/
theorem spec_c4_theorem :
    jsonOk "\x7b\"a\": \"x: Foo, y\"\x7d" = true ∧
      "Foo" ∈ detectedVars "\x7b\"a\": \"x: Foo, y\"\x7d" := by decide

/-- C9: the JSON literals true, false and null in value position are
matched by the identifier grammar, detected as bare variables and
spliced as concatenation fragments by the transcoder. -/
theorem spec_c9_theorem :
    detectedVars "\x7b\"a\": true\x7d" = ["true"] ∧
      format_for_uipath "\x7b\"a\": true\x7d" = "\"\x7b\"\"a\"\": \"\" + true + \"\"\x7d\"" ∧
      detectedVars "\x7b\"b\": false\x7d" = ["false"] ∧
      format_for_uipath "\x7b\"b\": false\x7d" = "\"\x7b\"\"b\"\": \"\" + false + \"\"\x7d\"" ∧
      detectedVars "\x7b\"c\": null\x7d" = ["null"] ∧
      format_for_uipath "\x7b\"c\": null\x7d" = "\"\x7b\"\"c\"\": \"\" + null + \"\"\x7d\"" := by
  decide

/-- C6 counterexample: on the input of Example 1 the output does not end
with the claimed character sequence (one quote before `text`): the key's
own quotes are doubled as well, so the actual tail carries two quotes
there. -/
theorem spec_c6_counterexample :
    endsWithL (format_for_uipath "\x7b\"text\": MyVariable\x7d").data
      "\"text\": \"\" + MyVariable + \"\"\x7d\"".data = false := by decide

/-- C6 (amended): on input of Example 1 the detected variable set is
exactly MyVariable and the output ends with the sequence in which the
key quotes are doubled too; indeed the whole output is exactly the
wrapped, doubled, substituted text. -/
theorem spec_c6_theorem :
    detectedVars "\x7b\"text\": MyVariable\x7d" = ["MyVariable"] ∧
      format_for_uipath "\x7b\"text\": MyVariable\x7d" =
        "\"\x7b\"\"text\"\": \"\" + MyVariable + \"\"\x7d\"" ∧
      endsWithL (format_for_uipath "\x7b\"text\": MyVariable\x7d").data
        "\"\"text\"\": \"\" + MyVariable + \"\"\x7d\"".data = true := by decide

/-- C3 counterexample: on this input (no variables, a quote pair right
before a plus) the final cleanup pass deletes a quote pair after
doubling, so the final output holds six non-outer quotes while twice the
pre-wrap count is eight. -/
theorem spec_c3_counterexample :
    countQ (format_for_uipath "\x7b\"\": \"\"+1\x7d").data - 2 ≠
      2 * countQ (preWrapL "\x7b\"\": \"\"+1\x7d".data) := by decide

/-- C2 counterexample: this input has zero detected variables, yet the
first cleanup pass deletes its quoted plus value, so the output differs
from the quote-doubled wrapped normalized input (and the claimed exact
passthrough fails). -/
theorem spec_c2_counterexample :
    detectedVars "\x7b\"a\": \"+\"\x7d" = [] ∧
      format_for_uipath "\x7b\"a\": \"+\"\x7d" ≠ wrapDoubleNorm "\x7b\"a\": \"+\"\x7d" := by
  decide

/-- C1 counterexample: V is detected, and every value-position
occurrence of V is substituted, but the first cleanup pass deletes the
quoted plus value and thereby re-creates a bare value-position
occurrence of V in the final output. -/
theorem spec_c1_counterexample :
    "V".data ∈ detectedL "\x7b\"a\": V, \"b\": \" + \"V]\x7d".data ∧
      hasMatch "V".data (format_for_uipath "\x7b\"a\": V, \"b\": \" + \"V]\x7d").data = true := by
  decide

/-- C8 counterexample: the suffix class of the source regex also admits
parentheses with identifier characters inside, so the token Foo.M(x),
which carries a non-empty argument list and is rejected by the
specification's grammar, is nevertheless detected. -/
theorem spec_c8_counterexample :
    detectedVars "\x7b\"a\": Foo.M(x)\x7d" = ["Foo.M(x)"] ∧
      specGrammar "Foo.M(x)".data = false := by decide

/-- C5: processing is refused (no transcoded output) exactly when the
strict JSON parse fails and the fallback brace-presence heuristic also
fails; in particular the brace-less input hello world is refused with
the validation-failure message. -/
theorem spec_c5_theorem :
    (∀ s : String, exceptOk (process s) =
      (jsonOk s ||
        (s.data.any (fun c => cn c = 123) && s.data.any (fun c => cn c = 125)))) ∧
    process "hello world" = Except.error "Invalid JSON structure" := by
  constructor
  · intro s
    simp only [process, validate_json_structure]
    cases h1 : jsonOk s
    · cases h2 : s.data.any fun c => cn c = 123 <;>
        cases h3 : s.data.any fun c => cn c = 125 <;>
          simp [h1, h2, h3, exceptOk]
    · simp [exceptOk]
  · rfl

/-- C10: the validator's heuristic checks only the presence of the two
brace characters, not that they form a matched pair, and any input that
strict-JSON-parses is accepted even with no braces at all; the inputs
close-brace-open-brace and the bare number 42 are both accepted and
processing proceeds on them. -/
theorem spec_c10_theorem :
    (∀ s : String, (validate_json_structure s).1 =
      (jsonOk s ||
        (s.data.any (fun c => cn c = 123) && s.data.any (fun c => cn c = 125)))) ∧
    jsonOk "\x7d\x7b" = false ∧
    (validate_json_structure "\x7d\x7b").1 = true ∧
    exceptOk (process "\x7d\x7b") = true ∧
    jsonOk "42" = true ∧
    "42".data.any (fun c => cn c = 123) = false ∧
    (validate_json_structure "42").1 = true ∧
    exceptOk (process "42") = true := by
  refine ⟨?_, by decide, by decide, by decide, by decide, by decide, by decide, by decide⟩
  intro s
  simp only [validate_json_structure]
  cases h1 : jsonOk s
  · cases h2 : s.data.any fun c => cn c = 123 <;>
      cases h3 : s.data.any fun c => cn c = 125 <;> simp [h1, h2, h3]
  · simp

/-!
Machinery for substitution completeness (claim C1).
-/

/-- Substitution over a colon-free prefix leaves the prefix unchanged. -/
theorem substVar_append_nc (v : List Char) :
    ∀ (a b : List Char), (∀ x ∈ a, x ≠ ':') → substVar v (a ++ b) = a ++ substVar v b := by
  intro a
  induction a with
  | nil => intro b _; simp
  | cons x a' ih =>
    intro b h
    have hx : x ≠ ':' := h x (List.mem_cons_self x a')
    rw [List.cons_append, substVar_cons_nc v (a' ++ b) hx,
      ih b (fun y hy => h y (List.mem_cons_of_mem x hy)), List.cons_append]

/-- No match starts inside a colon-free prefix. -/
theorem hasMatch_append_nc (v : List Char) :
    ∀ (a b : List Char), (∀ x ∈ a, x ≠ ':') → hasMatch v (a ++ b) = hasMatch v b := by
  intro a
  induction a with
  | nil => intro b _; simp
  | cons x a' ih =>
    intro b h
    have hx : x ≠ ':' := h x (List.mem_cons_self x a')
    rw [List.cons_append, hasMatch_cons, if_neg hx,
      ih b (fun y hy => h y (List.mem_cons_of_mem x hy))]

/-- A match in a suffix is a match in the whole text. -/
theorem hasMatch_suffix_true (v : List Char) :
    ∀ (a b : List Char), hasMatch v b = true → hasMatch v (a ++ b) = true := by
  intro a
  induction a with
  | nil => intro b h; simpa using h
  | cons x a' ih =>
    intro b h
    rw [List.cons_append, hasMatch_cons]
    by_cases hx : x = ':'
    · rw [if_pos hx, ih b h, Bool.or_true]
    · rw [if_neg hx, ih b h]

/-- A match-free text has match-free suffixes. -/
theorem hasMatch_drop {v s : List Char} (h : hasMatch v s = false) (k : Nat) :
    hasMatch v (s.drop k) = false := by
  cases hm : hasMatch v (s.drop k) with
  | false => rfl
  | true =>
    have h2 := hasMatch_suffix_true v (s.take k) (s.drop k) hm
    rw [List.take_append_drop, h] at h2
    simp at h2

/-- Shape of `goodVar`: a nonempty token starting with a letter or
underscore whose characters all lie in the suffix class. -/
theorem goodVar_shape {v : List Char} (h : goodVar v = true) :
    ∃ v0 v', v = v0 :: v' ∧ identStart v0 = true ∧ ∀ c ∈ v, sufChar c = true := by
  cases v with
  | nil => simp [goodVar] at h
  | cons v0 v' =>
    simp [goodVar] at h
    refine ⟨v0, v', rfl, h.1, ?_⟩
    intro c hc
    rcases List.mem_cons.mp hc with h1 | h1
    · rw [h1]; exact h.2.1
    · exact h.2.2 c h1

/-- Substitution on a colon-headed text always emits the colon first. -/
theorem substVar_colon_shape (u cs : List Char) :
    ∃ Z, substVar u (':' :: cs) = ':' :: Z := by
  cases htr : trySub u cs with
  | none => exact ⟨_, substVar_colon_none u htr⟩
  | some p =>
    cases p with
    | mk mid k => exact ⟨_, substVar_colon_some u htr⟩

/-- If a token of suffix-class characters is a prefix of the output of a
substitution, it was a prefix of the input. -/
theorem take_substVar (u : List Char) :
    ∀ (t w : List Char), (∀ c ∈ w, sufChar c = true) →
      (substVar u t).take w.length = w → t.take w.length = w := by
  intro t
  induction t with
  | nil =>
    intro w hw h
    have h0 : substVar u [] = [] := rfl
    rw [h0] at h
    simp at h
    rw [← h]
    simp
  | cons c cs ih =>
    intro w hw h
    cases w with
    | nil => simp
    | cons y w' =>
      have hy : sufChar y = true := hw y (List.mem_cons_self _ _)
      by_cases hc : c = ':'
      · subst hc
        obtain ⟨Z, hZ⟩ := substVar_colon_shape u cs
        rw [hZ, List.length_cons, List.take_succ_cons] at h
        injection h with h1 _
        exact absurd h1.symm (sufChar_ne_colon hy)
      · rw [substVar_cons_nc u cs hc, List.length_cons, List.take_succ_cons] at h
        injection h with h1 h2
        rw [List.length_cons, List.take_succ_cons, h1,
          ih w' (fun d hd => hw d (List.mem_cons_of_mem _ hd)) h2]

/-- A nonempty token never matches in the empty text. -/
theorem tryMatch_nil {v : List Char} (h : v ≠ []) : tryMatch v [] = false := by
  unfold tryMatch
  rw [List.dropWhile_nil, List.take_nil, if_neg (fun hh => h hh.symm)]

/-- Core preservation property: if a good token has no bare
value-position occurrence right after this point, substituting any
variable there does not create one.  The substitution either leaves the
relevant characters unchanged or places a colon or quote where the
match would need a token or terminator character. -/
theorem tryMatch_substVar (v u : List Char) (hv : goodVar v = true) :
    ∀ cs, tryMatch v cs = false → tryMatch v (substVar u cs) = false := by
  obtain ⟨v0, v', hveq, hv0, hvall⟩ := goodVar_shape hv
  subst hveq
  intro cs h
  have hwsa : ∀ x ∈ cs.takeWhile isSpace, x ≠ ':' :=
    fun x hx => isSpace_ne_colon (mem_takeWhile_p hx)
  have hsub : substVar u cs = cs.takeWhile isSpace ++ substVar u (cs.dropWhile isSpace) := by
    conv_lhs => rw [← List.takeWhile_append_dropWhile isSpace cs]
    exact substVar_append_nc u _ _ hwsa
  have hdo : (substVar u cs).dropWhile isSpace =
      (substVar u (cs.dropWhile isSpace)).dropWhile isSpace := by
    rw [hsub]
    exact List.dropWhile_append_of_pos (fun x hx => mem_takeWhile_p hx)
  rw [tryMatch_dropWhile (v0 :: v') (substVar u cs), hdo,
    ← tryMatch_dropWhile (v0 :: v') (substVar u (cs.dropWhile isSpace))]
  rw [tryMatch_dropWhile (v0 :: v') cs] at h
  cases ht1c : cs.dropWhile isSpace with
  | nil =>
    have h0 : substVar u [] = [] := rfl
    rw [h0]
    exact tryMatch_nil (List.cons_ne_nil _ _)
  | cons x t1' =>
    rw [ht1c] at h
    have hxns : isSpace x = false := head_dropWhile_false ht1c
    by_cases hxc : x = ':'
    · subst hxc
      obtain ⟨Z, hZ⟩ := substVar_colon_shape u t1'
      rw [hZ]
      unfold tryMatch
      rw [List.dropWhile_cons_of_neg (by decide : ¬(isSpace ':' = true)),
        List.length_cons, List.take_succ_cons]
      rw [if_neg ?hne]
      case hne =>
        intro heq
        injection heq with h1 _
        exact (sufChar_ne_colon (identStart_sufChar hv0)) h1.symm
    · rw [substVar_cons_nc u t1' hxc]
      by_cases hxv : x = v0
      · by_cases hpre : t1'.take v'.length = v'
        · subst hxv
          have hv'suf : ∀ y ∈ v', sufChar y = true :=
            fun y hy => hvall y (List.mem_cons_of_mem x hy)
          have hv'nc : ∀ y ∈ v', y ≠ ':' := fun y hy => sufChar_ne_colon (hv'suf y hy)
          have hsplit' : t1' = v' ++ t1'.drop v'.length := by
            conv_lhs => rw [← List.take_append_drop v'.length t1']
            rw [hpre]
          unfold tryMatch at h
          rw [List.dropWhile_cons_of_neg (by simp [hxns]), List.length_cons,
            List.take_succ_cons, hpre, if_pos rfl, List.drop_succ_cons] at h
          have hsubt1' : substVar u t1' = v' ++ substVar u (t1'.drop v'.length) := by
            conv_lhs => rw [hsplit']
            exact substVar_append_nc u _ _ hv'nc
          rw [hsubt1']
          unfold tryMatch
          rw [List.dropWhile_cons_of_neg (by simp [hxns]), List.length_cons,
            List.take_succ_cons, List.take_left' rfl, if_pos rfl, List.drop_succ_cons,
            List.drop_left' rfl]
          set r := t1'.drop v'.length with hrdef
          have hra : ∀ y ∈ r.takeWhile isSpace, y ≠ ':' :=
            fun y hy => isSpace_ne_colon (mem_takeWhile_p hy)
          have hsubr : substVar u r = r.takeWhile isSpace ++ substVar u (r.dropWhile isSpace) := by
            conv_lhs => rw [← List.takeWhile_append_dropWhile isSpace r]
            exact substVar_append_nc u _ _ hra
          have hdor : (substVar u r).dropWhile isSpace =
              (substVar u (r.dropWhile isSpace)).dropWhile isSpace := by
            rw [hsubr]
            exact List.dropWhile_append_of_pos (fun y hy => mem_takeWhile_p hy)
          rw [hdor]
          cases hr2 : r.dropWhile isSpace with
          | nil =>
            have h0 : substVar u [] = [] := rfl
            rw [h0, List.dropWhile_nil]
          | cons y r3 =>
            have hyns : isSpace y = false := head_dropWhile_false hr2
            have hyterm : isTerm y = false := by
              rw [hr2] at h
              simpa using h
            by_cases hyc : y = ':'
            · subst hyc
              obtain ⟨W, hW⟩ := substVar_colon_shape u r3
              rw [hW, List.dropWhile_cons_of_neg (by decide : ¬(isSpace ':' = true))]
              exact (by decide : isTerm ':' = false)
            · rw [substVar_cons_nc u r3 hyc,
                List.dropWhile_cons_of_neg (by simp [hyns])]
              exact hyterm
        · unfold tryMatch
          rw [List.dropWhile_cons_of_neg (by simp [hxns]), List.length_cons,
            List.take_succ_cons]
          rw [if_neg ?hc1]
          case hc1 =>
            intro heq
            injection heq with h1 h2
            exact hpre (take_substVar u t1' v'
              (fun d hd => hvall d (List.mem_cons_of_mem v0 hd)) h2)
      · unfold tryMatch
        rw [List.dropWhile_cons_of_neg (by simp [hxns]), List.length_cons,
          List.take_succ_cons]
        rw [if_neg ?hc2]
        case hc2 =>
          intro heq
          injection heq with h1 _
          exact hxv h1

/-- The replacement text produced by a substitution contains no colon:
its characters are whitespace, the quote-space-plus frame, the variable
characters and the terminator. -/
theorem mid_no_colon {u cs mid : List Char} {k : Nat} (hu : goodVar u = true)
    (h : trySub u cs = some (mid, k)) : ∀ x ∈ mid, x ≠ ':' := by
  obtain ⟨t, hterm, hmid⟩ := trySub_some_struct h
  obtain ⟨u0, u', hueq, hu0, huall⟩ := goodVar_shape hu
  subst hmid
  intro x hx
  rcases List.mem_append.mp hx with h1 | h1
  · exact isSpace_ne_colon (mem_takeWhile_p h1)
  rcases List.mem_cons.mp h1 with h2 | h1
  · subst h2; decide
  rcases List.mem_cons.mp h1 with h2 | h1
  · subst h2; decide
  rcases List.mem_cons.mp h1 with h2 | h1
  · subst h2; decide
  rcases List.mem_cons.mp h1 with h2 | h1
  · subst h2; decide
  rcases List.mem_append.mp h1 with h2 | h1
  · exact sufChar_ne_colon (huall x h2)
  rcases List.mem_cons.mp h1 with h2 | h1
  · subst h2; decide
  rcases List.mem_cons.mp h1 with h2 | h1
  · subst h2; decide
  rcases List.mem_cons.mp h1 with h2 | h1
  · subst h2; decide
  rcases List.mem_cons.mp h1 with h2 | h1
  · subst h2; decide
  rcases List.mem_append.mp h1 with h2 | h2
  · exact isSpace_ne_colon (mem_takeWhile_p h2)
  · have h3 : x = t := by simpa using h2
    subst h3
    exact isTerm_ne_colon hterm

/-- A good token never matches right at a replacement text: after the
leading whitespace the replacement starts with a quote. -/
theorem tryMatch_mid {v u cs mid : List Char} {k : Nat} (hv : goodVar v = true)
    (h : trySub u cs = some (mid, k)) (T : List Char) :
    tryMatch v (mid ++ T) = false := by
  obtain ⟨v0, v', hveq, hv0, _⟩ := goodVar_shape hv
  obtain ⟨t, _, hmid⟩ := trySub_some_struct h
  subst hmid hveq
  rw [List.append_assoc, List.cons_append]
  unfold tryMatch
  rw [List.dropWhile_append_of_pos (fun y hy => mem_takeWhile_p hy),
    List.dropWhile_cons_of_neg (by decide : ¬(isSpace '"' = true)),
    List.length_cons, List.take_succ_cons]
  rw [if_neg ?hq]
  case hq =>
    intro heq
    injection heq with h1 _
    exact (sufChar_ne_quote (identStart_sufChar hv0)) h1.symm

/-- After substituting a good variable, no bare value-position
occurrence of it remains anywhere in the text. -/
theorem hasMatch_substVar_self (v : List Char) (hv : goodVar v = true) :
    ∀ (n : Nat) (s : List Char), s.length ≤ n → hasMatch v (substVar v s) = false := by
  intro n
  induction n with
  | zero =>
    intro s h
    have hs : s = [] := List.eq_nil_of_length_eq_zero (Nat.le_zero.mp h)
    subst hs
    rfl
  | succ m ih =>
    intro s hs
    cases s with
    | nil => rfl
    | cons c cs =>
      simp only [List.length_cons, Nat.succ_le_succ_iff] at hs
      by_cases hc : c = ':'
      · subst hc
        cases htr : trySub v cs with
        | none =>
          rw [substVar_colon_none v htr, hasMatch_cons, if_pos rfl,
            tryMatch_substVar v v hv cs ((trySub_none_iff v cs).mp htr), ih cs hs]
          rfl
        | some p =>
          obtain ⟨mid, k⟩ := p
          rw [substVar_colon_some v htr, hasMatch_cons, if_pos rfl,
            tryMatch_mid hv htr _,
            hasMatch_append_nc v mid _ (mid_no_colon hv htr),
            ih (cs.drop k) (le_trans (by simp) hs)]
          rfl
      · rw [substVar_cons_nc v cs hc, hasMatch_cons, if_neg hc]
        exact ih cs hs

/-- Substituting another good variable never re-creates a bare
value-position occurrence of a good token that had none. -/
theorem hasMatch_substVar_other (v u : List Char) (hv : goodVar v = true)
    (hu : goodVar u = true) :
    ∀ (n : Nat) (s : List Char), s.length ≤ n → hasMatch v s = false →
      hasMatch v (substVar u s) = false := by
  intro n
  induction n with
  | zero =>
    intro s h _
    have hs : s = [] := List.eq_nil_of_length_eq_zero (Nat.le_zero.mp h)
    subst hs
    rfl
  | succ m ih =>
    intro s hs h
    cases s with
    | nil => rfl
    | cons c cs =>
      simp only [List.length_cons, Nat.succ_le_succ_iff] at hs
      by_cases hc : c = ':'
      · subst hc
        rw [hasMatch_cons, if_pos rfl] at h
        have h1 : tryMatch v cs = false := by
          cases hx : tryMatch v cs
          · rfl
          · rw [hx] at h; simp at h
        have h2 : hasMatch v cs = false := by
          cases hx : hasMatch v cs
          · rfl
          · rw [hx] at h; simp at h
        cases htr : trySub u cs with
        | none =>
          rw [substVar_colon_none u htr, hasMatch_cons, if_pos rfl,
            tryMatch_substVar v u hv cs h1, ih cs hs h2]
          rfl
        | some p =>
          obtain ⟨mid, k⟩ := p
          rw [substVar_colon_some u htr, hasMatch_cons, if_pos rfl,
            tryMatch_mid hv htr _,
            hasMatch_append_nc v mid _ (mid_no_colon hu htr),
            ih (cs.drop k) (le_trans (by simp) hs) (hasMatch_drop h2 k)]
          rfl
      · rw [hasMatch_cons, if_neg hc] at h
        rw [substVar_cons_nc u cs hc, hasMatch_cons, if_neg hc]
        exact ih cs hs h

/-- Substituting a list of good variables preserves the absence of a
bare value-position occurrence of a good token. -/
theorem hasMatch_substAll_preserve (v : List Char) (hv : goodVar v = true) :
    ∀ (vs : List (List Char)), (∀ w ∈ vs, goodVar w = true) →
      ∀ t, hasMatch v t = false → hasMatch v (substAll vs t) = false := by
  intro vs
  induction vs with
  | nil => intro _ t h; exact h
  | cons w vs' ih =>
    intro hall t h
    have hstep : hasMatch v (substVar w t) = false :=
      hasMatch_substVar_other v w hv (hall w (List.mem_cons_self _ _))
        t.length t le_rfl h
    exact ih (fun x hx => hall x (List.mem_cons_of_mem _ hx)) (substVar w t) hstep

/-- After the whole substitution loop over a list of good variables, no
member of the list has a bare value-position occurrence left. -/
theorem hasMatch_substAll (v : List Char) (hv : goodVar v = true) :
    ∀ (vs : List (List Char)), (∀ w ∈ vs, goodVar w = true) → v ∈ vs →
      ∀ t, hasMatch v (substAll vs t) = false := by
  intro vs
  induction vs with
  | nil => intro _ hmem; simp at hmem
  | cons w vs' ih =>
    intro hall hmem t
    have hstep : substAll (w :: vs') t = substAll vs' (substVar w t) := rfl
    rw [hstep]
    rcases List.mem_cons.mp hmem with h1 | h1
    · subst h1
      exact hasMatch_substAll_preserve v hv vs'
        (fun x hx => hall x (List.mem_cons_of_mem _ hx)) (substVar v t)
        (hasMatch_substVar_self v hv t.length t le_rfl)
    · exact ih (fun x hx => hall x (List.mem_cons_of_mem _ hx)) h1 (substVar w t)

/-- A good token construction: identifier-start head, suffix-class
characters everywhere. -/
theorem goodVar_of {c : Char} {rest : List Char} (hc : identStart c = true)
    (hrest : ∀ x ∈ rest, sufChar x = true) : goodVar (c :: rest) = true := by
  simp [goodVar, hc, identStart_sufChar hc]
  intro x hx
  exact hrest x hx

/-- Every token produced by the identifier parse is a good variable. -/
theorem parseTok_good {l tok : List Char} (h : parseTok l = some tok) :
    goodVar tok = true := by
  cases l with
  | nil => simp [parseTok] at h
  | cons c cs =>
    simp only [parseTok] at h
    by_cases hc : identStart c
    · rw [if_pos hc] at h
      have hbase : goodVar (c :: cs.takeWhile identChar) = true :=
        goodVar_of hc (fun x hx => identChar_sufChar (mem_takeWhile_p hx))
      rcases hd : cs.dropWhile identChar with _ | ⟨e, _ | ⟨d, ds⟩⟩
      · rw [hd] at h
        simp at h
        rw [← h]
        exact hbase
      · rw [hd] at h
        by_cases he : e = '.'
        · subst he; simp at h; rw [← h]; exact hbase
        · simp [he] at h; rw [← h]; exact hbase
      · rw [hd] at h
        by_cases he : e = '.'
        · subst he
          by_cases hsd : sufChar d
          · simp [hsd] at h
            rw [← h]
            refine goodVar_of hc ?_
            intro x hx
            rcases List.mem_append.mp hx with h1 | h1
            · exact identChar_sufChar (mem_takeWhile_p h1)
            · rcases List.mem_cons.mp h1 with h2 | h2
              · subst h2; decide
              · rcases List.mem_cons.mp h2 with h3 | h3
                · subst h3; exact hsd
                · exact mem_takeWhile_p h3
          · simp [hsd] at h; rw [← h]; exact hbase
        · simp [he] at h; rw [← h]; exact hbase
    · rw [if_neg hc] at h
      simp at h

/-- A successful detection match captures exactly the parsed token. -/
theorem matchAfterColon_tok {cs tok : List Char} {k : Nat}
    (h : matchAfterColon cs = some (tok, k)) :
    parseTok (cs.dropWhile isSpace) = some tok := by
  unfold matchAfterColon at h
  split at h
  · simp at h
  · rename_i tk hp
    split at h
    · split at h
      · simp at h
        rw [hp, h.1]
      · simp at h
    · simp at h

/-- Every token recorded by the detection scan is a good variable. -/
theorem findAllF_good :
    ∀ (f : Nat) (l : List Char), ∀ t ∈ findAllF f l, goodVar t = true := by
  intro f
  induction f with
  | zero => intro l t ht; cases l <;> simp [findAllF] at ht
  | succ g ih =>
    intro l t ht
    cases l with
    | nil => simp [findAllF] at ht
    | cons c cs =>
      unfold findAllF at ht
      by_cases hc : c = ':'
      · rw [if_pos hc] at ht
        cases hm : matchAfterColon cs with
        | none => rw [hm] at ht; exact ih cs t ht
        | some p =>
          obtain ⟨tok, k⟩ := p
          rw [hm] at ht
          rcases List.mem_cons.mp ht with h1 | h1
          · subst h1; exact parseTok_good (matchAfterColon_tok hm)
          · exact ih (cs.drop k) t h1
      · rw [if_neg hc] at ht
        exact ih cs t ht

/-- Members of the deduplicated list are members of the original. -/
theorem mem_dedupAux :
    ∀ (l seen : List (List Char)) (x : List Char), x ∈ dedupAux seen l → x ∈ l := by
  intro l
  induction l with
  | nil => intro seen x hx; simp [dedupAux] at hx
  | cons y ys ih =>
    intro seen x hx
    unfold dedupAux at hx
    by_cases hs : seen.contains y
    · rw [if_pos hs] at hx
      exact List.mem_cons_of_mem y (ih seen x hx)
    · rw [if_neg hs] at hx
      rcases List.mem_cons.mp hx with h1 | h1
      · exact h1 ▸ List.mem_cons_self y ys
      · exact List.mem_cons_of_mem y (ih (y :: seen) x h1)

/-- C1 (amended): every identifier the detector reports on the
normalized text is replaced at every value-position occurrence by the
concatenation form and substituted spans are never re-matched, so at
the end of the substitution stage no detected bare identifier token
remains in value position; the later cleanup passes can re-create one
(see the counterexample). -/
theorem spec_c1_theorem :
    ∀ (s v : List Char), v ∈ detectedL s → hasMatch v (afterSubstL s) = false := by
  intro s v hv
  have hall : ∀ w ∈ detectedL s, goodVar w = true := fun w hw =>
    findAllF_good (normalizeL s).length (normalizeL s) w (mem_dedupAux _ _ _ hw)
  exact hasMatch_substAll v (hall v hv) (detectedL s) hall hv (normalizeL s)

/-- C1 witness: the theorem applied to the input of Example 1 and its
detected variable. -/
theorem spec_c1_witness :
    "MyVariable".data ∈ detectedL "\x7b\"text\": MyVariable\x7d".data ∧
      hasMatch "MyVariable".data (afterSubstL "\x7b\"text\": MyVariable\x7d".data) = false :=
  ⟨by decide, spec_c1_theorem "\x7b\"text\": MyVariable\x7d".data "MyVariable".data (by decide)⟩

/-!
Machinery for the no-variable passthrough (claim C2).
-/

/-- Characters of the collapse output are spaces or input characters. -/
theorem mem_collapseAux :
    ∀ (l : List Char) (b : Bool) (x : Char), x ∈ collapseAux b l → x = ' ' ∨ x ∈ l := by
  intro l
  induction l with
  | nil => intro b x hx; simp [collapseAux] at hx
  | cons c cs ih =>
    intro b x hx
    unfold collapseAux at hx
    by_cases hc : isSpace c
    · rw [if_pos hc] at hx
      by_cases hb : b
      · rw [if_pos hb] at hx
        rcases ih true x hx with h1 | h1
        · exact Or.inl h1
        · exact Or.inr (List.mem_cons_of_mem c h1)
      · rw [if_neg hb] at hx
        rcases List.mem_cons.mp hx with h1 | h1
        · exact Or.inl h1
        · rcases ih true x h1 with h2 | h2
          · exact Or.inl h2
          · exact Or.inr (List.mem_cons_of_mem c h2)
    · rw [if_neg hc] at hx
      rcases List.mem_cons.mp hx with h1 | h1
      · exact Or.inr (h1 ▸ List.mem_cons_self c cs)
      · rcases ih false x h1 with h2 | h2
        · exact Or.inl h2
        · exact Or.inr (List.mem_cons_of_mem c h2)

/-- Characters of the stripped text are input characters. -/
theorem mem_pyStrip {l : List Char} {x : Char} (hx : x ∈ pyStrip l) : x ∈ l := by
  unfold pyStrip at hx
  rw [List.mem_reverse] at hx
  have h1 := mem_of_mem_dropWhile hx
  rw [List.mem_reverse] at h1
  exact mem_of_mem_dropWhile h1

/-- Characters of the normalized text are spaces or input characters. -/
theorem mem_normalizeL {l : List Char} {x : Char} (hx : x ∈ normalizeL l) :
    x = ' ' ∨ x ∈ l := by
  rcases mem_collapseAux (pyStrip l) false x hx with h1 | h1
  · exact Or.inl h1
  · exact Or.inr (mem_pyStrip h1)

/-- Unfolding equation of `cleanup1` on a non-quote head. -/
theorem cleanup1_cons_nq {c : Char} (cs : List Char) (h : c ≠ '"') :
    cleanup1 (c :: cs) = c :: cleanup1 cs := by
  unfold cleanup1
  simp only [List.length_cons, cleanup1F, if_neg h]

/-- Unfolding equation of `cleanup1` on a quote with no match. -/
theorem cleanup1_quote_none {cs : List Char} (h : try1 cs = none) :
    cleanup1 ('"' :: cs) = '"' :: cleanup1 cs := by
  unfold cleanup1
  simp [cleanup1F, h]

/-- Unfolding equation of `cleanup2` on a non-plus head. -/
theorem cleanup2_cons_np {c : Char} (cs : List Char) (h : c ≠ '+') :
    cleanup2 (c :: cs) = c :: cleanup2 cs := by
  unfold cleanup2
  simp only [List.length_cons, cleanup2F, if_neg h]

/-- A successful first-cleanup match contains a plus. -/
theorem try1_plus {cs : List Char} {k : Nat} (h : try1 cs = some k) : '+' ∈ cs := by
  unfold try1 at h
  split at h
  · rename_i r heq
    exact mem_of_mem_dropWhile (heq ▸ List.mem_cons_self '+' r)
  · simp at h

/-- The first cleanup pass leaves plus-free text unchanged. -/
theorem cleanup1_id : ∀ (t : List Char), (∀ x ∈ t, x ≠ '+') → cleanup1 t = t := by
  intro t
  induction t with
  | nil => intro _; rfl
  | cons c cs ih =>
    intro h
    have hcs : ∀ x ∈ cs, x ≠ '+' := fun x hx => h x (List.mem_cons_of_mem c hx)
    by_cases hc : c = '"'
    · subst hc
      cases htr : try1 cs with
      | none => rw [cleanup1_quote_none htr, ih hcs]
      | some k => exact absurd rfl (hcs '+' (try1_plus htr))
    · rw [cleanup1_cons_nq cs hc, ih hcs]

/-- The second cleanup pass leaves plus-free text unchanged. -/
theorem cleanup2_id : ∀ (t : List Char), (∀ x ∈ t, x ≠ '+') → cleanup2 t = t := by
  intro t
  induction t with
  | nil => intro _; rfl
  | cons c cs ih =>
    intro h
    have hc : c ≠ '+' := h c (List.mem_cons_self c cs)
    rw [cleanup2_cons_np cs hc, ih (fun x hx => h x (List.mem_cons_of_mem c hx))]

/-- Unfolding equation of `fcleanup1` on a non-quote head. -/
theorem fcleanup1_cons_nq {c : Char} (cs : List Char) (h : c ≠ '"') :
    fcleanup1 (c :: cs) = c :: fcleanup1 cs := by
  unfold fcleanup1
  simp only [List.length_cons, fcleanup1F, if_neg h]

/-- Unfolding equation of `fcleanup1` on a quote with no match. -/
theorem fcleanup1_quote_none {cs : List Char} (h : fc1try cs = none) :
    fcleanup1 ('"' :: cs) = '"' :: fcleanup1 cs := by
  unfold fcleanup1
  simp [fcleanup1F, h]

/-- Unfolding equation of `fcleanup2` on a non-plus head. -/
theorem fcleanup2_cons_np {c : Char} (cs : List Char) (h : c ≠ '+') :
    fcleanup2 (c :: cs) = c :: fcleanup2 cs := by
  unfold fcleanup2
  simp only [List.length_cons, fcleanup2F, if_neg h]

/-- A successful first-final-cleanup match contains a plus. -/
theorem fc1try_plus {cs : List Char} {k : Nat} (h : fc1try cs = some k) : '+' ∈ cs := by
  unfold fc1try at h
  split at h
  · rename_i r
    split at h
    · rename_i r2 heq
      have h1 : '+' ∈ r.dropWhile isSpace := heq ▸ List.mem_cons_self '+' r2
      have h2 : '+' ∈ r := mem_of_mem_dropWhile h1
      simp [h2]
    · simp at h
  · simp at h

/-- The first final cleanup pass leaves plus-free text unchanged. -/
theorem fcleanup1_id : ∀ (t : List Char), (∀ x ∈ t, x ≠ '+') → fcleanup1 t = t := by
  intro t
  induction t with
  | nil => intro _; rfl
  | cons c cs ih =>
    intro h
    have hcs : ∀ x ∈ cs, x ≠ '+' := fun x hx => h x (List.mem_cons_of_mem c hx)
    by_cases hc : c = '"'
    · subst hc
      cases htr : fc1try cs with
      | none => rw [fcleanup1_quote_none htr, ih hcs]
      | some k => exact absurd rfl (hcs '+' (fc1try_plus htr))
    · rw [fcleanup1_cons_nq cs hc, ih hcs]

/-- The second final cleanup pass leaves plus-free text unchanged. -/
theorem fcleanup2_id : ∀ (t : List Char), (∀ x ∈ t, x ≠ '+') → fcleanup2 t = t := by
  intro t
  induction t with
  | nil => intro _; rfl
  | cons c cs ih =>
    intro h
    have hc : c ≠ '+' := h c (List.mem_cons_self c cs)
    rw [fcleanup2_cons_np cs hc, ih (fun x hx => h x (List.mem_cons_of_mem c hx))]

/-- Characters of the quote-doubled text are input characters. -/
theorem mem_doubleQuotes : ∀ {t : List Char} {x : Char}, x ∈ doubleQuotes t → x ∈ t := by
  intro t
  induction t with
  | nil => intro x hx; simp [doubleQuotes] at hx
  | cons c cs ih =>
    intro x hx
    unfold doubleQuotes at hx
    by_cases hc : c = '"'
    · rw [if_pos hc] at hx
      rcases List.mem_cons.mp hx with h1 | h1
      · rw [h1, hc]; exact List.mem_cons_self _ _
      · rcases List.mem_cons.mp h1 with h2 | h2
        · rw [h2, hc]; exact List.mem_cons_self _ _
        · exact List.mem_cons_of_mem c (ih h2)
    · rw [if_neg hc] at hx
      rcases List.mem_cons.mp hx with h1 | h1
      · exact h1 ▸ List.mem_cons_self c cs
      · exact List.mem_cons_of_mem c (ih h1)

/-- C2 (amended): on inputs with zero detected variables and no plus
character, the output is exactly the quote-doubled, outer-wrapped
normalized input and contains no plus; Example 3 yields exactly the
claimed output. -/
theorem spec_c2_theorem :
    (∀ s : String, detectedVars s = [] → (∀ x ∈ s.data, x ≠ '+') →
      format_for_uipath s = wrapDoubleNorm s ∧
        ∀ x ∈ (format_for_uipath s).data, x ≠ '+') ∧
    format_for_uipath "\x7b\"name\": \"Alice\"\x7d" =
      "\"\x7b\"\"name\"\": \"\"Alice\"\"\x7d\"" := by
  constructor
  · intro s hdet hplus
    have hdetL : detectedL s.data = [] := by
      have := congrArg (fun l => l.length) hdet
      simp [detectedVars] at this
      exact this
    have hnorm : ∀ x ∈ normalizeL s.data, x ≠ '+' := by
      intro x hx
      rcases mem_normalizeL hx with h1 | h1
      · subst h1; decide
      · exact hplus x h1
    have hsub : afterSubstL s.data = normalizeL s.data := by
      unfold afterSubstL
      rw [hdetL]
      rfl
    have hpre : preWrapL s.data = normalizeL s.data := by
      unfold preWrapL
      rw [hsub, cleanup1_id _ hnorm, cleanup2_id _ hnorm]
    have hw : ∀ x ∈ wrap (doubleQuotes (normalizeL s.data)), x ≠ '+' := by
      intro x hx
      unfold wrap at hx
      rcases List.mem_cons.mp hx with h1 | h1
      · subst h1; decide
      · rcases List.mem_append.mp h1 with h2 | h2
        · exact hnorm x (mem_doubleQuotes h2)
        · simp at h2; subst h2; decide
    have hfmt : formatL s.data = wrap (doubleQuotes (normalizeL s.data)) := by
      unfold formatL
      rw [hpre, fcleanup1_id _ hw, fcleanup2_id _ hw]
    constructor
    · unfold format_for_uipath wrapDoubleNorm
      rw [hfmt]
    · intro x hx
      have hdata : (format_for_uipath s).data = formatL s.data := rfl
      rw [hdata, hfmt] at hx
      exact hw x hx
  · decide

/-- C2 witness: the amended theorem applied to Example 3. -/
theorem spec_c2_witness :
    format_for_uipath "\x7b\"name\": \"Alice\"\x7d" =
      wrapDoubleNorm "\x7b\"name\": \"Alice\"\x7d" :=
  (spec_c2_theorem.1 "\x7b\"name\": \"Alice\"\x7d" (by decide) (by decide)).1

/-- Doubling quotes exactly doubles the quote count. -/
theorem countQ_double : ∀ t : List Char, countQ (doubleQuotes t) = 2 * countQ t := by
  intro t
  induction t with
  | nil => rfl
  | cons c cs ih =>
    unfold doubleQuotes
    by_cases hc : c = '"'
    · subst hc
      simp [countQ, List.count_cons] at *
      omega
    · rw [if_neg hc]
      simp [countQ, List.count_cons, hc] at *
      omega

/-- Wrapping adds exactly the two outer quotes. -/
theorem countQ_wrap (t : List Char) : countQ (wrap t) = countQ t + 2 := by
  simp [countQ, wrap, List.count_cons, List.count_append]

/-- C3 (amended): for every input, the number of quote characters right
after the quote-doubling and wrapping steps, excluding the two outer
wrapping quotes, is exactly twice the number of quotes in the pre-wrap
text; the final cleanup passes may remove further quote pairs. -/
theorem spec_c3_theorem :
    ∀ s : String, countQ (wrap (doubleQuotes (preWrapL s.data))) =
      2 * countQ (preWrapL s.data) + 2 := by
  intro s
  rw [countQ_wrap, countQ_double]

/-!
Machinery for the wrapping invariant (claim C7).
-/

/-- Unfolding equation of `tailOK` on a cons with nonempty tail. -/
theorem tailOK_cons_ne (b : Bool) (c : Char) {cs : List Char} (h : cs ≠ []) :
    tailOK b (c :: cs) = if c = '"' then tailOK (!b) cs else b && tailOK true cs := by
  cases cs with
  | nil => exact absurd rfl h
  | cons d ds => rfl

/-- Unfolding equation of `tailOK` on a singleton. -/
theorem tailOK_one (b : Bool) (c : Char) : tailOK b [c] = (b && decide (c = '"')) := rfl

/-- The doubled text followed by the closing outer quote scans to the
incoming parity: quote pairs cancel and the final quote closes. -/
theorem tailOK_double : ∀ (t : List Char) (b : Bool),
    tailOK b (doubleQuotes t ++ ['"']) = b := by
  intro t
  induction t with
  | nil =>
    intro b
    simp [doubleQuotes, tailOK_one]
  | cons c cs ih =>
    intro b
    unfold doubleQuotes
    by_cases hc : c = '"'
    · rw [if_pos hc]
      have h1 : doubleQuotes cs ++ ['"'] ≠ [] :=
        List.append_ne_nil_of_right_ne_nil _ (by simp)
      rw [List.cons_append, List.cons_append,
        tailOK_cons_ne b '"' (by simp), if_pos rfl,
        tailOK_cons_ne (!b) '"' h1, if_pos rfl, Bool.not_not]
      exact ih b
    · rw [if_neg hc]
      have h1 : doubleQuotes cs ++ ['"'] ≠ [] :=
        List.append_ne_nil_of_right_ne_nil _ (by simp)
      rw [List.cons_append, tailOK_cons_ne b c h1, if_neg hc, ih true, Bool.and_true]

/-- Scanning from even parity over a quote-free prefix is scanning the
rest. -/
theorem tailOK_nq_prefix : ∀ (a : List Char), (∀ y ∈ a, y ≠ '"') →
    ∀ (x : List Char), x ≠ [] → tailOK true (a ++ x) = tailOK true x := by
  intro a
  induction a with
  | nil => intro _ x _; rfl
  | cons y a' ih =>
    intro h x hx
    have hy : y ≠ '"' := h y (List.mem_cons_self _ _)
    have h1 : a' ++ x ≠ [] := List.append_ne_nil_of_right_ne_nil _ hx
    rw [List.cons_append, tailOK_cons_ne true y h1, if_neg hy, Bool.true_and,
      ih (fun z hz => h z (List.mem_cons_of_mem y hz)) x hx]

/-- A quote-free text never satisfies the tail scan: the last character
cannot be the closing quote. -/
theorem tailOK_all_nq_false : ∀ (x : List Char), (∀ y ∈ x, y ≠ '"') →
    ∀ b, tailOK b x = false := by
  intro x
  induction x with
  | nil => intro _ b; rfl
  | cons y x' ih =>
    intro h b
    have hy : y ≠ '"' := h y (List.mem_cons_self _ _)
    cases x' with
    | nil => simp [tailOK_one, hy]
    | cons z zs =>
      rw [tailOK_cons_ne b y (by simp), if_neg hy,
        ih (fun w hw => h w (List.mem_cons_of_mem y hw)) true, Bool.and_false]

/-- Passing a nonempty quote-free prefix forces even incoming parity and
a nonempty satisfying rest. -/
theorem tailOK_nq_entry : ∀ (a : List Char), a ≠ [] → (∀ y ∈ a, y ≠ '"') →
    ∀ (b : Bool) (x : List Char), tailOK b (a ++ x) = true →
      b = true ∧ x ≠ [] ∧ tailOK true x = true := by
  intro a
  induction a with
  | nil => intro h; exact absurd rfl h
  | cons y a' ih =>
    intro _ h b x hb
    have hy : y ≠ '"' := h y (List.mem_cons_self _ _)
    cases ha' : a' with
    | nil =>
      subst ha'
      cases x with
      | nil =>
        rw [List.append_nil, tailOK_one] at hb
        simp [hy] at hb
      | cons z zs =>
        rw [List.cons_append, List.nil_append, tailOK_cons_ne b y (by simp),
          if_neg hy] at hb
        obtain ⟨h1, h2⟩ : b = true ∧ tailOK true (z :: zs) = true := by simpa using hb
        exact ⟨h1, by simp, h2⟩
    | cons w ws =>
      subst ha'
      have h1 : (w :: ws) ++ x ≠ [] := by simp
      rw [List.cons_append, tailOK_cons_ne b y h1, if_neg hy] at hb
      obtain ⟨hb1, hb2⟩ : b = true ∧ tailOK true (w :: ws ++ x) = true := by simpa using hb
      obtain ⟨_, h3, h4⟩ := ih (by simp) (fun z hz => h z (List.mem_cons_of_mem y hz)) true x hb2
      exact ⟨hb1, h3, h4⟩

/-- Fuel beyond the input length does not change `fcleanup1F`. -/
theorem fcleanup1F_fuel :
    ∀ (f₁ : Nat) (s : List Char) (f₂ : Nat), s.length ≤ f₁ → s.length ≤ f₂ →
      fcleanup1F f₁ s = fcleanup1F f₂ s := by
  intro f₁
  induction f₁ with
  | zero =>
    intro s f₂ h1 _
    have hs : s = [] := List.eq_nil_of_length_eq_zero (Nat.le_zero.mp h1)
    subst hs
    cases f₂ <;> rfl
  | succ f ih =>
    intro s f₂ h1 h2
    cases s with
    | nil => cases f₂ <;> rfl
    | cons c cs =>
      cases f₂ with
      | zero => simp at h2
      | succ g =>
        simp only [List.length_cons, Nat.succ_le_succ_iff] at h1 h2
        simp only [fcleanup1F]
        by_cases hc : c = '"'
        · simp only [hc, if_pos rfl]
          cases h : fc1try cs with
          | none => simp only [ih cs g h1 h2]
          | some k =>
            have hd1 : (cs.drop k).length ≤ f := le_trans (by simp) h1
            have hd2 : (cs.drop k).length ≤ g := le_trans (by simp) h2
            simp [h, ih (cs.drop k) g hd1 hd2]
        · simp only [if_neg hc, ih cs g h1 h2]

/-- Fuel beyond the input length does not change `fcleanup2F`. -/
theorem fcleanup2F_fuel :
    ∀ (f₁ : Nat) (s : List Char) (f₂ : Nat), s.length ≤ f₁ → s.length ≤ f₂ →
      fcleanup2F f₁ s = fcleanup2F f₂ s := by
  intro f₁
  induction f₁ with
  | zero =>
    intro s f₂ h1 _
    have hs : s = [] := List.eq_nil_of_length_eq_zero (Nat.le_zero.mp h1)
    subst hs
    cases f₂ <;> rfl
  | succ f ih =>
    intro s f₂ h1 h2
    cases s with
    | nil => cases f₂ <;> rfl
    | cons c cs =>
      cases f₂ with
      | zero => simp at h2
      | succ g =>
        simp only [List.length_cons, Nat.succ_le_succ_iff] at h1 h2
        simp only [fcleanup2F]
        by_cases hc : c = '+'
        · simp only [hc, if_pos rfl]
          cases h : fc2try cs with
          | none => simp only [ih cs g h1 h2]
          | some k =>
            have hd1 : (cs.drop k).length ≤ f := le_trans (by simp) h1
            have hd2 : (cs.drop k).length ≤ g := le_trans (by simp) h2
            simp [h, ih (cs.drop k) g hd1 hd2]
        · simp only [if_neg hc, ih cs g h1 h2]

/-- Unfolding equation of `fcleanup1` on a quote with a match. -/
theorem fcleanup1_quote_some {cs : List Char} {k : Nat} (h : fc1try cs = some k) :
    fcleanup1 ('"' :: cs) = '"' :: '"' :: ' ' :: '+' :: ' ' :: fcleanup1 (cs.drop k) := by
  unfold fcleanup1
  simp [fcleanup1F, h]
  exact fcleanup1F_fuel _ _ _ (by simp) (by simp)

/-- Unfolding equation of `fcleanup2` on a plus with no match. -/
theorem fcleanup2_plus_none {cs : List Char} (h : fc2try cs = none) :
    fcleanup2 ('+' :: cs) = '+' :: fcleanup2 cs := by
  unfold fcleanup2
  simp [fcleanup2F, h]

/-- Unfolding equation of `fcleanup2` on a plus with a match. -/
theorem fcleanup2_plus_some {cs : List Char} {k : Nat} (h : fc2try cs = some k) :
    fcleanup2 ('+' :: cs) = ' ' :: '+' :: ' ' :: '"' :: '"' :: fcleanup2 (cs.drop k) := by
  unfold fcleanup2
  simp [fcleanup2F, h]
  exact fcleanup2F_fuel _ _ _ (by simp) (by simp)

/-- Nonempty inputs give nonempty first-final-cleanup outputs. -/
theorem fcleanup1_ne_nil {t : List Char} (h : t ≠ []) : fcleanup1 t ≠ [] := by
  cases t with
  | nil => exact absurd rfl h
  | cons c cs =>
    by_cases hc : c = '"'
    · subst hc
      cases htr : fc1try cs with
      | none => rw [fcleanup1_quote_none htr]; simp
      | some k => rw [fcleanup1_quote_some htr]; simp
    · rw [fcleanup1_cons_nq cs hc]; simp

/-- Nonempty inputs give nonempty second-final-cleanup outputs. -/
theorem fcleanup2_ne_nil {t : List Char} (h : t ≠ []) : fcleanup2 t ≠ [] := by
  cases t with
  | nil => exact absurd rfl h
  | cons c cs =>
    by_cases hc : c = '+'
    · subst hc
      cases htr : fc2try cs with
      | none => rw [fcleanup2_plus_none htr]; simp
      | some k => rw [fcleanup2_plus_some htr]; simp
    · rw [fcleanup2_cons_np cs hc]; simp

/-- Structure of a successful first-final-cleanup match: three more
quotes, whitespace, a plus, trailing whitespace; the scan resumes right
after that whitespace. -/
theorem fc1try_some {cs : List Char} {k : Nat} (h : fc1try cs = some k) :
    ∃ r r2, cs = '"' :: '"' :: '"' :: r ∧ r.dropWhile isSpace = '+' :: r2 ∧
      cs.drop k = r2.dropWhile isSpace := by
  unfold fc1try at h
  split at h
  · rename_i r
    split at h
    · rename_i r2 heq
      refine ⟨r, r2, rfl, heq, ?_⟩
      have hk : k = 3 + ((r.takeWhile isSpace).length + 1 + (r2.takeWhile isSpace).length) := by
        simp at h
        omega
      rw [hk]
      have h3 : ('"' :: '"' :: '"' :: r).drop
          (3 + ((r.takeWhile isSpace).length + 1 + (r2.takeWhile isSpace).length)) =
          r.drop ((r.takeWhile isSpace).length + 1 + (r2.takeWhile isSpace).length) := by
        have he : 3 + ((r.takeWhile isSpace).length + 1 + (r2.takeWhile isSpace).length) =
            (((r.takeWhile isSpace).length + 1 + (r2.takeWhile isSpace).length) + 1) + 1 + 1 := by
          omega
        rw [he, List.drop_succ_cons, List.drop_succ_cons, List.drop_succ_cons]
      rw [h3]
      have h4 : r.drop ((r.takeWhile isSpace).length + 1 + (r2.takeWhile isSpace).length) =
          ((r.drop (r.takeWhile isSpace).length).drop 1).drop (r2.takeWhile isSpace).length := by
        rw [List.drop_drop, List.drop_drop]
        congr 1
        omega
      rw [h4, ← dropWhile_eq_drop_takeWhile, heq, List.drop_succ_cons, List.drop_zero,
        ← dropWhile_eq_drop_takeWhile]
    · simp at h
  · simp at h

/-- Structure of a successful second-final-cleanup match: whitespace
then four quotes; the scan resumes after the fourth quote. -/
theorem fc2try_some {cs : List Char} {k : Nat} (h : fc2try cs = some k) :
    ∃ rest, cs.dropWhile isSpace = '"' :: '"' :: '"' :: '"' :: rest ∧
      cs.drop k = rest := by
  unfold fc2try at h
  split at h
  · rename_i rest heq
    refine ⟨rest, heq, ?_⟩
    have hk : k = (cs.takeWhile isSpace).length + 4 := by
      simp at h
      omega
    rw [hk]
    have h1 : cs.drop ((cs.takeWhile isSpace).length + 4) =
        (cs.drop (cs.takeWhile isSpace).length).drop 4 := by
      rw [List.drop_drop]
    rw [h1, ← dropWhile_eq_drop_takeWhile, heq]
    rfl
  · simp at h

/-- If dropping a predicate empties the list, all members satisfied it. -/
theorem all_of_dropWhile_nil {p : Char → Bool} :
    ∀ {l : List Char}, l.dropWhile p = [] → ∀ x ∈ l, p x = true := by
  intro l
  induction l with
  | nil => intro _ x hx; simp at hx
  | cons c cs ih =>
    intro h x hx
    by_cases hc : p c
    · rw [List.dropWhile_cons_of_pos hc] at h
      rcases List.mem_cons.mp hx with h1 | h1
      · rw [h1]; exact hc
      · exact ih h x h1
    · rw [List.dropWhile_cons_of_neg hc] at h
      simp at h

/-- The satisfying rest behind leading whitespace still satisfies the
tail scan from even parity. -/
theorem tailOK_behind_ws {r2 : List Char} (h : tailOK true r2 = true) :
    r2.dropWhile isSpace ≠ [] ∧ tailOK true (r2.dropWhile isSpace) = true := by
  cases hT0 : r2.dropWhile isSpace with
  | nil =>
    have hall : ∀ y ∈ r2, y ≠ '"' :=
      fun y hy => isSpace_ne_quote (all_of_dropWhile_nil hT0 y hy)
    rw [tailOK_all_nq_false r2 hall true] at h
    simp at h
  | cons z zs =>
    constructor
    · simp
    · have hsplit : r2 = r2.takeWhile isSpace ++ r2.dropWhile isSpace :=
        (List.takeWhile_append_dropWhile _ _).symm
      rw [hsplit, tailOK_nq_prefix (r2.takeWhile isSpace)
        (fun y hy => isSpace_ne_quote (mem_takeWhile_p hy)) _ (by rw [hT0]; simp)] at h
      rw [hT0] at h
      exact h

/-- The first final cleanup pass preserves the tail-scan invariant. -/
theorem tailOK_fcleanup1 :
    ∀ (n : Nat) (cs : List Char) (b : Bool), cs.length ≤ n → tailOK b cs = true →
      tailOK b (fcleanup1 cs) = true := by
  intro n
  induction n with
  | zero =>
    intro cs b h1 h2
    have hs : cs = [] := List.eq_nil_of_length_eq_zero (Nat.le_zero.mp h1)
    subst hs
    have h0 : tailOK b ([] : List Char) = false := rfl
    rw [h0] at h2
    simp at h2
  | succ m ih =>
    intro cs b hlen hok
    cases cs with
    | nil =>
      have h0 : tailOK b ([] : List Char) = false := rfl
      rw [h0] at hok
      simp at hok
    | cons c cs' =>
      simp only [List.length_cons, Nat.succ_le_succ_iff] at hlen
      cases cs' with
      | nil =>
        by_cases hc : c = '"'
        · subst hc
          rw [fcleanup1_quote_none (show fc1try [] = none from rfl)]
          exact hok
        · rw [fcleanup1_cons_nq [] hc]
          exact hok
      | cons d ds =>
        by_cases hc : c = '"'
        · subst hc
          cases htr : fc1try (d :: ds) with
          | none =>
            rw [fcleanup1_quote_none htr]
            rw [tailOK_cons_ne b '"' (by simp), if_pos rfl] at hok
            rw [tailOK_cons_ne b '"' (fcleanup1_ne_nil (by simp)), if_pos rfl]
            exact ih (d :: ds) (!b) hlen hok
          | some k =>
            obtain ⟨r, r2, hcs, hdw, hdrop⟩ := fc1try_some htr
            rw [fcleanup1_quote_some htr, hdrop]
            rw [hcs] at hok
            have hrne : r ≠ [] := by
              intro he
              rw [he] at hdw
              simp at hdw
            rw [tailOK_cons_ne b '"' (by simp), if_pos rfl,
              tailOK_cons_ne (!b) '"' (by simp), if_pos rfl,
              tailOK_cons_ne (!!b) '"' (by simp), if_pos rfl,
              tailOK_cons_ne (!!!b) '"' hrne, if_pos rfl] at hok
            rw [show (!!!!b) = b from by simp] at hok
            have hrsplit : r = (r.takeWhile isSpace ++ ['+']) ++ r2 := by
              conv_lhs => rw [← List.takeWhile_append_dropWhile isSpace r]
              rw [hdw, List.append_assoc]
              rfl
            rw [hrsplit] at hok
            have hanq : ∀ y ∈ r.takeWhile isSpace ++ ['+'], y ≠ '"' := by
              intro y hy
              rcases List.mem_append.mp hy with h1 | h1
              · exact isSpace_ne_quote (mem_takeWhile_p h1)
              · simp at h1; subst h1; decide
            obtain ⟨hbT, _, hr2ok⟩ :=
              tailOK_nq_entry _ (by simp) hanq b r2 hok
            subst hbT
            obtain ⟨hTne, hT⟩ := tailOK_behind_ws hr2ok
            have hfne : fcleanup1 (r2.dropWhile isSpace) ≠ [] := fcleanup1_ne_nil hTne
            have hTlen : (r2.dropWhile isSpace).length ≤ m := by
              have h1 : ((d :: ds).drop k).length ≤ (d :: ds).length := by simp
              rw [hdrop] at h1
              exact le_trans h1 hlen
            rw [tailOK_cons_ne true '"' (by simp), if_pos rfl,
              tailOK_cons_ne (!true) '"' (by simp), if_pos rfl,
              tailOK_cons_ne (!!true) ' ' (by simp), if_neg (by decide),
              tailOK_cons_ne true '+' (by simp), if_neg (by decide),
              tailOK_cons_ne true ' ' hfne, if_neg (by decide)]
            simp only [Bool.not_not, Bool.true_and]
            exact ih (r2.dropWhile isSpace) true hTlen hT
        · rw [fcleanup1_cons_nq (d :: ds) hc]
          rw [tailOK_cons_ne b c (by simp), if_neg hc] at hok
          rw [tailOK_cons_ne b c (fcleanup1_ne_nil (by simp)), if_neg hc]
          obtain ⟨hb, hok'⟩ : b = true ∧ tailOK true (d :: ds) = true := by simpa using hok
          rw [hb, ih (d :: ds) true hlen hok', Bool.and_true]

/-- The second final cleanup pass preserves the tail-scan invariant. -/
theorem tailOK_fcleanup2 :
    ∀ (n : Nat) (cs : List Char) (b : Bool), cs.length ≤ n → tailOK b cs = true →
      tailOK b (fcleanup2 cs) = true := by
  intro n
  induction n with
  | zero =>
    intro cs b h1 h2
    have hs : cs = [] := List.eq_nil_of_length_eq_zero (Nat.le_zero.mp h1)
    subst hs
    have h0 : tailOK b ([] : List Char) = false := rfl
    rw [h0] at h2
    simp at h2
  | succ m ih =>
    intro cs b hlen hok
    cases cs with
    | nil =>
      have h0 : tailOK b ([] : List Char) = false := rfl
      rw [h0] at hok
      simp at hok
    | cons c cs' =>
      simp only [List.length_cons, Nat.succ_le_succ_iff] at hlen
      cases cs' with
      | nil =>
        by_cases hc : c = '+'
        · subst hc
          rw [fcleanup2_plus_none (show fc2try [] = none from rfl)]
          exact hok
        · rw [fcleanup2_cons_np [] hc]
          exact hok
      | cons d ds =>
        by_cases hc : c = '+'
        · subst hc
          cases htr : fc2try (d :: ds) with
          | none =>
            rw [fcleanup2_plus_none htr]
            rw [tailOK_cons_ne b '+' (by simp), if_neg (by decide)] at hok
            rw [tailOK_cons_ne b '+' (fcleanup2_ne_nil (by simp)), if_neg (by decide)]
            obtain ⟨hb, hok'⟩ : b = true ∧ tailOK true (d :: ds) = true := by simpa using hok
            rw [hb, ih (d :: ds) true hlen hok', Bool.and_true]
          | some k =>
            obtain ⟨rest, hdw, hdrop⟩ := fc2try_some htr
            rw [fcleanup2_plus_some htr, hdrop]
            rw [tailOK_cons_ne b '+' (by simp), if_neg (by decide)] at hok
            obtain ⟨hb, hok'⟩ : b = true ∧ tailOK true (d :: ds) = true := by simpa using hok
            subst hb
            have hqe : d :: ds = (d :: ds).takeWhile isSpace ++
                ('"' :: '"' :: '"' :: '"' :: rest) := by
              conv_lhs => rw [← List.takeWhile_append_dropWhile isSpace (d :: ds)]
              rw [hdw]
            rw [hqe, tailOK_nq_prefix ((d :: ds).takeWhile isSpace)
              (fun y hy => isSpace_ne_quote (mem_takeWhile_p hy)) _ (by simp)] at hok'
            have hrne : rest ≠ [] := by
              intro he
              rw [he] at hok'
              have hfq : tailOK true ['"', '"', '"', '"'] = false := rfl
              rw [hfq] at hok'
              simp at hok'
            rw [tailOK_cons_ne true '"' (by simp), if_pos rfl,
              tailOK_cons_ne (!true) '"' (by simp), if_pos rfl,
              tailOK_cons_ne (!!true) '"' (by simp), if_pos rfl,
              tailOK_cons_ne (!!!true) '"' hrne, if_pos rfl] at hok'
            rw [show (!!!!true) = true from by simp] at hok'
            have hrlen : rest.length ≤ m := by
              have h1 : ((d :: ds).drop k).length ≤ (d :: ds).length := by simp
              rw [hdrop] at h1
              exact le_trans h1 hlen
            have hfne : fcleanup2 rest ≠ [] := fcleanup2_ne_nil hrne
            rw [tailOK_cons_ne true ' ' (by simp), if_neg (by decide),
              tailOK_cons_ne true '+' (by simp), if_neg (by decide),
              tailOK_cons_ne true ' ' (by simp), if_neg (by decide),
              tailOK_cons_ne true '"' (by simp), if_pos rfl,
              tailOK_cons_ne (!true) '"' hfne, if_pos rfl]
            simp only [Bool.not_not, Bool.true_and]
            exact ih rest true hrlen hok'
        · rw [fcleanup2_cons_np (d :: ds) hc]
          by_cases hq : c = '"'
          · subst hq
            rw [tailOK_cons_ne b '"' (by simp), if_pos rfl] at hok
            rw [tailOK_cons_ne b '"' (fcleanup2_ne_nil (by simp)), if_pos rfl]
            exact ih (d :: ds) (!b) hlen hok
          · rw [tailOK_cons_ne b c (by simp), if_neg hq] at hok
            rw [tailOK_cons_ne b c (fcleanup2_ne_nil (by simp)), if_neg hq]
            obtain ⟨hb, hok'⟩ : b = true ∧ tailOK true (d :: ds) = true := by simpa using hok
            rw [hb, ih (d :: ds) true hlen hok', Bool.and_true]

/-- Under the tail-scan invariant the first final cleanup can never
match at the opening outer quote: a match there would need three more
quotes and a plus, leaving the scan at odd parity before a quote-free
nonempty block. -/
theorem fc1try_none_of_tailOK {rest : List Char} (h : tailOK true rest = true) :
    fc1try rest = none := by
  cases htr : fc1try rest with
  | none => rfl
  | some k =>
    exfalso
    obtain ⟨r, r2, hcs, hdw, _⟩ := fc1try_some htr
    rw [hcs] at h
    have hrne : r ≠ [] := by
      intro he
      rw [he] at hdw
      simp at hdw
    rw [tailOK_cons_ne true '"' (by simp), if_pos rfl,
      tailOK_cons_ne (!true) '"' (by simp), if_pos rfl,
      tailOK_cons_ne (!!true) '"' hrne, if_pos rfl] at h
    rw [show (!!!true) = false from by simp] at h
    have hrsplit : r = (r.takeWhile isSpace ++ ['+']) ++ r2 := by
      conv_lhs => rw [← List.takeWhile_append_dropWhile isSpace r]
      rw [hdw, List.append_assoc]
      rfl
    rw [hrsplit] at h
    have hanq : ∀ y ∈ r.takeWhile isSpace ++ ['+'], y ≠ '"' := by
      intro y hy
      rcases List.mem_append.mp hy with h1 | h1
      · exact isSpace_ne_quote (mem_takeWhile_p h1)
      · simp at h1; subst h1; decide
    obtain ⟨hbT, _, _⟩ := tailOK_nq_entry _ (by simp) hanq false r2 h
    simp at hbT

/-- Unfolding equation of `outOK` on a quote head. -/
theorem outOK_cons_quote (rest : List Char) : outOK ('"' :: rest) = tailOK true rest := rfl

/-- The transformed text always satisfies the wrapping invariant. -/
theorem outOK_formatL (s : List Char) : outOK (formatL s) = true := by
  unfold formatL wrap
  have h1 : tailOK true (doubleQuotes (preWrapL s) ++ ['"']) = true :=
    tailOK_double (preWrapL s) true
  rw [fcleanup1_quote_none (fc1try_none_of_tailOK h1)]
  have h3 : tailOK true (fcleanup1 (doubleQuotes (preWrapL s) ++ ['"'])) = true :=
    tailOK_fcleanup1 _ _ true le_rfl h1
  rw [fcleanup2_cons_np _ (by decide), outOK_cons_quote]
  exact tailOK_fcleanup2 _ _ true le_rfl h3

/-- C7: for every input, the transcoder's output begins and ends with
exactly one unescaped quote character and every interior maximal run of
quote characters has even length (no unpaired interior quote), as
expressed by the `outOK` scan. -/
theorem spec_c7_theorem : ∀ s : String, outOK ((format_for_uipath s).data) = true := by
  intro s
  exact outOK_formatL s.data

/-!
Machinery for the identifier grammar (claim C8).
-/

/-- Every token produced by the identifier parse satisfies the source's
token grammar. -/
theorem parseTok_tokenGrammar {l tok : List Char} (h : parseTok l = some tok) :
    tokenGrammar tok = true := by
  cases l with
  | nil => simp [parseTok] at h
  | cons c cs =>
    simp only [parseTok] at h
    by_cases hc : identStart c
    · rw [if_pos hc] at h
      have hbase : tokenGrammar (c :: cs.takeWhile identChar) = true := by
        simp only [tokenGrammar]
        rw [dropWhile_eq_nil_of_all (fun x hx => mem_takeWhile_p hx)]
        simp [hc]
      rcases hd : cs.dropWhile identChar with _ | ⟨e, _ | ⟨d, ds⟩⟩
      · rw [hd] at h
        simp at h
        rw [← h]
        exact hbase
      · rw [hd] at h
        by_cases he : e = '.'
        · subst he; simp at h; rw [← h]; exact hbase
        · simp [he] at h; rw [← h]; exact hbase
      · rw [hd] at h
        by_cases he : e = '.'
        · subst he
          by_cases hsd : sufChar d
          · simp [hsd] at h
            rw [← h]
            simp only [tokenGrammar, List.cons_append]
            rw [List.dropWhile_append_of_pos (fun x hx => mem_takeWhile_p hx),
              List.dropWhile_cons_of_neg (by decide : ¬(identChar '.' = true))]
            simp [hc, hsd]
            decide
          · simp [hsd] at h; rw [← h]; exact hbase
        · simp [he] at h; rw [← h]; exact hbase
    · rw [if_neg hc] at h
      simp at h

/-- Every token recorded by the detection scan satisfies the source's
token grammar. -/
theorem findAllF_grammar :
    ∀ (f : Nat) (l : List Char), ∀ t ∈ findAllF f l, tokenGrammar t = true := by
  intro f
  induction f with
  | zero => intro l t ht; cases l <;> simp [findAllF] at ht
  | succ g ih =>
    intro l t ht
    cases l with
    | nil => simp [findAllF] at ht
    | cons c cs =>
      unfold findAllF at ht
      by_cases hc : c = ':'
      · rw [if_pos hc] at ht
        cases hm : matchAfterColon cs with
        | none => rw [hm] at ht; exact ih cs t ht
        | some p =>
          obtain ⟨tok, k⟩ := p
          rw [hm] at ht
          rcases List.mem_cons.mp ht with h1 | h1
          · subst h1; exact parseTok_tokenGrammar (matchAfterColon_tok hm)
          · exact ih (cs.drop k) t h1
      · rw [if_neg hc] at ht
        exact ih cs t ht

/-- Tokens of the source grammar are good variables. -/
theorem tokenGrammar_good {t : List Char} (h : tokenGrammar t = true) :
    goodVar t = true := by
  cases t with
  | nil => simp [tokenGrammar] at h
  | cons c rest =>
    simp only [tokenGrammar] at h
    cases hci : identStart c with
    | false => rw [hci] at h; simp at h
    | true =>
      rw [hci, Bool.true_and] at h
      refine goodVar_of hci ?_
      intro x hx
      have hsplit : rest = rest.takeWhile identChar ++ rest.dropWhile identChar :=
        (List.takeWhile_append_dropWhile _ _).symm
      rw [hsplit] at hx
      rcases List.mem_append.mp hx with h1 | h1
      · exact identChar_sufChar (mem_takeWhile_p h1)
      · rcases hd : rest.dropWhile identChar with _ | ⟨e, _ | ⟨d, ds⟩⟩
        · rw [hd] at h1; simp at h1
        · rw [hd] at h h1
          by_cases he : e = '.'
          · subst he; simp at h
          · simp [he] at h
        · rw [hd] at h h1
          by_cases he : e = '.'
          · subst he
            have hall : ∀ y ∈ '.' :: d :: ds, sufChar y = true := by
              intro y hy
              exact (List.all_eq_true.mp (by simpa using h)) y hy
            exact hall x h1
          · simp [he] at h

/-- A grammar token followed by a closing bracket parses back to exactly
itself. -/
theorem parseTok_of_grammar {t : List Char} (h : tokenGrammar t = true) :
    parseTok (t ++ [']']) = some t := by
  cases t with
  | nil => simp [tokenGrammar] at h
  | cons c rest =>
    simp only [tokenGrammar] at h
    cases hci : identStart c with
    | false => rw [hci] at h; simp at h
    | true =>
      rw [hci, Bool.true_and] at h
      rw [List.cons_append]
      simp only [parseTok, hci, if_pos]
      rcases hd : rest.dropWhile identChar with _ | ⟨e, _ | ⟨d, ds⟩⟩
      · have hall : ∀ x ∈ rest, identChar x = true := all_of_dropWhile_nil hd
        have hdw2 : (rest ++ [']']).dropWhile identChar = [']'] := by
          rw [List.dropWhile_append_of_pos hall]
          exact List.dropWhile_cons_of_neg (by decide)
        have htw2 : (rest ++ [']']).takeWhile identChar = rest := by
          rw [List.takeWhile_append_of_pos hall,
            List.takeWhile_cons_of_neg (by decide : ¬(identChar ']' = true))]
          simp
        split
        · rename_i d' ds' heq
          rw [hdw2] at heq
          simp at heq
        · rw [htw2]
      · rw [hd] at h
        by_cases he : e = '.'
        · subst he; simp at h
        · simp [he] at h
      · rw [hd] at h
        by_cases he : e = '.'
        · subst he
          have hall : ('.' :: d :: ds).all sufChar = true := by simpa using h
          have hsd : sufChar d = true := by
            have := List.all_eq_true.mp hall
            exact this d (by simp)
          have hds : ∀ x ∈ ds, sufChar x = true := by
            intro x hx
            exact (List.all_eq_true.mp hall) x (by simp [hx])
          have hsplit : rest = rest.takeWhile identChar ++ '.' :: d :: ds := by
            conv_lhs => rw [← List.takeWhile_append_dropWhile identChar rest]
            rw [hd]
          have htwmem : ∀ x ∈ rest.takeWhile identChar, identChar x = true :=
            fun x hx => mem_takeWhile_p hx
          have hdw2 : (rest ++ [']']).dropWhile identChar = '.' :: d :: (ds ++ [']']) := by
            conv_lhs => rw [hsplit]
            rw [List.append_assoc, List.dropWhile_append_of_pos htwmem]
            rw [show ('.' :: d :: ds) ++ [']'] = '.' :: d :: (ds ++ [']']) from by simp]
            exact List.dropWhile_cons_of_neg (by decide)
          have htw2 : (rest ++ [']']).takeWhile identChar = rest.takeWhile identChar := by
            conv_lhs => rw [hsplit]
            rw [List.append_assoc, List.takeWhile_append_of_pos htwmem]
            rw [show ('.' :: d :: ds) ++ [']'] = '.' :: (d :: ds ++ [']']) from by simp]
            rw [List.takeWhile_cons_of_neg (by decide : ¬(identChar '.' = true))]
            simp
          have htws : (d :: (ds ++ [']'])).takeWhile sufChar = d :: ds := by
            rw [List.takeWhile_cons_of_pos hsd, List.takeWhile_append_of_pos hds,
              List.takeWhile_cons_of_neg (by decide : ¬(sufChar ']' = true))]
            simp
          split
          · rename_i d' ds' heq
            rw [hdw2] at heq
            injection heq with heq1 heq2
            injection heq2 with heqd heqds
            subst heqd
            subst heqds
            rw [if_pos hsd, htw2, htws]
            conv_rhs => rw [hsplit]
            simp
          · rename_i hne
            exact (hne d (ds ++ [']']) hdw2).elim
        · simp [he] at h

/-- Collapsing whitespace leaves whitespace-free text unchanged. -/
theorem collapseAux_id : ∀ (l : List Char), (∀ x ∈ l, isSpace x = false) →
    ∀ b, collapseAux b l = l := by
  intro l
  induction l with
  | nil => intro _ b; rfl
  | cons c cs ih =>
    intro h b
    unfold collapseAux
    rw [if_neg (by simp [h c (List.mem_cons_self _ _)]),
      ih (fun x hx => h x (List.mem_cons_of_mem c hx)) false]

/-- Fuel beyond the input length does not change `findAllF`. -/
theorem findAllF_fuel :
    ∀ (f₁ : Nat) (s : List Char) (f₂ : Nat), s.length ≤ f₁ → s.length ≤ f₂ →
      findAllF f₁ s = findAllF f₂ s := by
  intro f₁
  induction f₁ with
  | zero =>
    intro s f₂ h1 _
    have hs : s = [] := List.eq_nil_of_length_eq_zero (Nat.le_zero.mp h1)
    subst hs
    cases f₂ <;> rfl
  | succ f ih =>
    intro s f₂ h1 h2
    cases s with
    | nil => cases f₂ <;> rfl
    | cons c cs =>
      cases f₂ with
      | zero => simp at h2
      | succ g =>
        simp only [List.length_cons, Nat.succ_le_succ_iff] at h1 h2
        simp only [findAllF]
        by_cases hc : c = ':'
        · simp only [hc, if_pos rfl]
          cases h : matchAfterColon cs with
          | none => simp only [ih cs g h1 h2]
          | some p =>
            have hd1 : (cs.drop p.2).length ≤ f := le_trans (by simp) h1
            have hd2 : (cs.drop p.2).length ≤ g := le_trans (by simp) h2
            simp [h, ih (cs.drop p.2) g hd1 hd2]
        · simp only [if_neg hc, ih cs g h1 h2]

/-- Unfolding equation of `findAll` on a non-colon head. -/
theorem findAll_cons_nc {c : Char} (cs : List Char) (h : c ≠ ':') :
    findAll (c :: cs) = findAll cs := by
  unfold findAll
  simp only [List.length_cons, findAllF, if_neg h]

/-- Unfolding equation of `findAll` on a colon with a match. -/
theorem findAll_colon_some {cs tok : List Char} {k : Nat}
    (h : matchAfterColon cs = some (tok, k)) :
    findAll (':' :: cs) = tok :: findAll (cs.drop k) := by
  unfold findAll
  simp [findAllF, h]
  exact findAllF_fuel _ _ _ (by simp) (by simp)

/-- Normalization leaves the single-space value document unchanged. -/
theorem normalize_mkValueInput {t : List Char} (h : tokenGrammar t = true) :
    normalizeL (mkValueInput t) = mkValueInput t := by
  obtain ⟨c0, rest0, hteq, hc0, hall⟩ := goodVar_shape (tokenGrammar_good h)
  have htns : ∀ x ∈ t ++ [']'], isSpace x = false := by
    intro x hx
    rcases List.mem_append.mp hx with h1 | h1
    · exact sufChar_not_space (hall x h1)
    · simp at h1; subst h1; decide
  have hstrip : pyStrip (mkValueInput t) = mkValueInput t := by
    unfold pyStrip mkValueInput
    rw [List.dropWhile_cons_of_neg (by decide : ¬(isSpace '"' = true))]
    rw [show '"' :: 'k' :: '"' :: ':' :: ' ' :: (t ++ [']']) =
      ('"' :: 'k' :: '"' :: ':' :: ' ' :: t) ++ [']'] from by simp]
    rw [List.reverse_append, show ([']'] : List Char).reverse = [']'] from rfl,
      List.singleton_append,
      List.dropWhile_cons_of_neg (by decide : ¬(isSpace ']' = true)),
      List.reverse_cons, List.reverse_reverse]
  unfold normalizeL
  rw [hstrip]
  unfold mkValueInput
  have e1 : isSpace '"' = false := by decide
  have e2 : isSpace 'k' = false := by decide
  have e3 : isSpace ':' = false := by decide
  have e4 : isSpace ' ' = true := by decide
  simp only [collapseAux, e1, e2, e3, e4, Bool.false_eq_true, if_false, if_true]
  rw [collapseAux_id _ htns true]

/-- The detection match right after the colon of the value document
captures exactly the token. -/
theorem matchAfterColon_mkValueInput {t : List Char} (h : tokenGrammar t = true) :
    matchAfterColon (' ' :: (t ++ [']'])) = some (t, 1 + t.length) := by
  obtain ⟨c0, rest0, hteq, hc0, hall⟩ := goodVar_shape (tokenGrammar_good h)
  have hdw : (' ' :: (t ++ [']'])).dropWhile isSpace = t ++ [']'] := by
    rw [List.dropWhile_cons_of_pos (by decide : isSpace ' ' = true), hteq,
      List.cons_append,
      List.dropWhile_cons_of_neg (by simp [identStart_not_space hc0]),
      ← List.cons_append, ← hteq]
  have htw1 : (' ' :: (t ++ [']'])).takeWhile isSpace = [' '] := by
    rw [List.takeWhile_cons_of_pos (by decide : isSpace ' ' = true), hteq,
      List.cons_append,
      List.takeWhile_cons_of_neg (by simp [identStart_not_space hc0])]
  have hdropt : (t ++ [']']).drop t.length = [']'] := List.drop_left t [']']
  simp only [matchAfterColon, hdw, parseTok_of_grammar h, hdropt, htw1,
    List.dropWhile_cons_of_neg (by decide : ¬(isSpace ']' = true)),
    List.takeWhile_cons_of_neg (by decide : ¬(isSpace ']' = true))]
  rw [if_pos (by decide : isTerm ']' = true)]
  simp

/-- Every grammar token placed in a value slot is detected, and is the
only detection. -/
theorem detected_of_grammar {t : List Char} (h : tokenGrammar t = true) :
    detectedL (mkValueInput t) = [t] := by
  unfold detectedL
  rw [normalize_mkValueInput h]
  unfold mkValueInput
  rw [findAll_cons_nc _ (by decide), findAll_cons_nc _ (by decide),
    findAll_cons_nc _ (by decide), findAll_colon_some (matchAfterColon_mkValueInput h)]
  have hdropk : (' ' :: (t ++ [']'])).drop (1 + t.length) = [']'] := by
    rw [show 1 + t.length = t.length + 1 from by omega, List.drop_succ_cons,
      List.drop_left]
  rw [hdropk, findAll_cons_nc _ (by decide)]
  rfl

/-- C8 (amended): the set of tokens the detector matches is exactly the
source grammar: a letter or underscore, then letters, digits or
underscores, then an optional dotted-suffix part made of a dot followed
by one or more characters from the class of letters, digits,
underscore, dot and parentheses.  Soundness: every detected token has
this shape.  Completeness: every token of this shape is detected when
it occupies a value slot. -/
theorem spec_c8_theorem :
    (∀ (s t : List Char), t ∈ detectedL s → tokenGrammar t = true) ∧
    (∀ t : List Char, tokenGrammar t = true → detectedL (mkValueInput t) = [t]) := by
  constructor
  · intro s t ht
    exact findAllF_grammar _ _ t (mem_dedupAux _ _ _ ht)
  · intro t ht
    exact detected_of_grammar ht

/-- C8 witness: both directions applied at a dotted method-call token. -/
theorem spec_c8_witness :
    tokenGrammar "User.ID.ToString()".data = true ∧
      detectedL (mkValueInput "User.ID.ToString()".data) = ["User.ID.ToString()".data] :=
  ⟨by decide, spec_c8_theorem.2 "User.ID.ToString()".data (by decide)⟩
